import Mathlib

/-!
Verification development for the brainduck interpreter (src/brainduck.c).

The interpreter executes a brainfuck-like language directly on the source
byte stream.  We embed the program source as a list of characters and the
file position of the C FILE handle as a natural number.  The C functions
fmove and fmoveback are fseek wrappers; fseek to a negative offset fails
and leaves the position unchanged, while seeking past the end succeeds.
The C helper freadc reads the byte under the cursor without advancing it;
at end of file fgetc does not advance, and the unconditional
fseek(file, -1, SEEK_CUR) inside freadc then moves the position back one
byte.  Functions whose C loops can fail to terminate (the backward scans,
and the interpreter loop itself) take an explicit fuel argument and
return none when the fuel runs out.
-/

/-- Modulus of the C type unsigned int, used for the global depth counter. -/
def U32 : Nat := 4294967296

/-- STACK_SIZE from brainduck.c: capacity of the tape. -/
def STACK_SIZE : Nat := 1000

/-- The error_code enum of brainduck.c. -/
inductive Error where
  | ERR_OK
  | ERR_UNKNOWN_CHAR
  | ERR_MATCHING_BRACKET
  | ERR_BOUNDS
  | ERR_FILE
  | ERR_UNKNOWN
deriving DecidableEq

open Error

/-- fmove(file, n): fseek by n from the current position; fseek to a
negative offset fails and leaves the position unchanged. -/
def fmove (pos : Nat) (n : Int) : Nat :=
  if (pos : Int) + n < 0 then pos else ((pos : Int) + n).toNat

/-- fmoveback(file, n): fseek backward by the absolute value of n. -/
def fmoveback (pos : Nat) (n : Int) : Nat :=
  fmove pos (-(n.natAbs : Int))

/-- freadc(file): read the byte under the cursor without consuming it.
Returns the byte (none at end of source) and the resulting position: on a
successful read the position is unchanged; at end of source fgetc does not
move and the fseek(-1) inside freadc pulls the position back one byte. -/
def freadc (s : List Char) (pos : Nat) : Option Char × Nat :=
  match s.get? pos with
  | some ch => (some ch, pos)
  | none => (none, fmove pos (-1))

/-- ffindc(file, c): advance the cursor until byte c or end of source is
found; the cursor rests on the found byte (or one before the end position
after the failed read at end of source). -/
def ffindc (s : List Char) (c : Char) (pos : Nat) : Nat :=
  match h : s.get? pos with
  | none => pos - 1
  | some v => if v = c then pos else ffindc s c (pos + 1)
termination_by s.length - pos
decreasing_by
  have hp : pos < s.length := by
    by_contra hge
    rw [List.get?_eq_none.mpr (Nat.le_of_not_lt hge)] at h
    exact Option.noConfusion h
  exact Nat.sub_succ_lt_self _ _ hp

/-- Loop body of ffindc_matching: local depth counter d (a C int), one
byte per iteration in the normalized direction dir. -/
def ffmAux (s : List Char) (c1 c2 : Char) (dir : Int) : Nat → Int → Nat → Option Nat
  | 0, _, _ => none
  | fuel + 1, d, pos =>
    match freadc s pos with
    | (none, p1) => some p1
    | (some v, _) =>
      if v = c1 then ffmAux s c1 c2 dir fuel (d + 1) (fmove pos dir)
      else if v = c2 then
        if d = 1 then some pos
        else ffmAux s c1 c2 dir fuel (d - 1) (fmove pos dir)
      else ffmAux s c1 c2 dir fuel d (fmove pos dir)

/-- ffindc_matching(file, c1, c2, direction): scan for the counterpart of
the delimiter under the cursor, counting nesting in a local counter seeded
at zero; the direction is normalized to plus or minus one.  Returns the
final cursor position; none models running out of fuel (the C loop can
spin forever when stuck at position zero scanning backward). -/
def ffindc_matching (s : List Char) (c1 c2 : Char) (direction : Int)
    (fuel : Nat) (pos : Nat) : Option Nat :=
  ffmAux s c1 c2 (if direction < 0 then -1 else 1) fuel 0 pos

/-- Scan loop of jump_forward: current_depth starts at the just
incremented global depth dpt; a byte of '[' raises it, a byte of ']' at
exactly dpt is the matching bracket (cursor rests on it), any other ']'
lowers it, and a comment opening triggers a nested forward paren scan.
All counter arithmetic is mod 2^32 (unsigned int). -/
def jfAux (s : List Char) (dpt : Nat) : Nat → Nat → Nat → Option Nat
  | 0, _, _ => none
  | fuel + 1, cd, pos =>
    match freadc s pos with
    | (none, p1) => some p1
    | (some c, _) =>
      if c = '[' then jfAux s dpt fuel ((cd + 1) % U32) (fmove pos 1)
      else if c = ']' then
        if cd = dpt then some pos
        else jfAux s dpt fuel ((cd + (U32 - 1)) % U32) (fmove pos 1)
      else if c = '(' then
        match ffindc_matching s '(' ')' 1 fuel pos with
        | none => none
        | some p => jfAux s dpt fuel cd (fmove p 1)
      else jfAux s dpt fuel cd (fmove pos 1)

/-- jump_forward(file): increment the global depth (always, even when
relooping); if the current cell is nonzero return at once, otherwise move
one byte past the '[' and scan forward for the matching ']'.  Returns the
new global depth and the final cursor position. -/
def jump_forward (s : List Char) (cellv : Nat) (dpt : Nat) (pos : Nat)
    (fuel : Nat) : Option (Nat × Nat) :=
  let dpt' := (dpt + 1) % U32
  if cellv ≠ 0 then some (dpt', pos)
  else (jfAux s dpt' fuel dpt' (fmove pos 1)).map fun p => (dpt', p)

/-- Scan loop of jump_backward: mirror image of the forward scan; the C
loop has no end-of-source test, and at end of source the failed freadc
pulls the cursor back one byte and the loop keeps going. -/
def jbAux (s : List Char) (dpt : Nat) : Nat → Nat → Nat → Option Nat
  | 0, _, _ => none
  | fuel + 1, cd, pos =>
    match freadc s pos with
    | (none, p1) => jbAux s dpt fuel cd (fmoveback p1 1)
    | (some c, _) =>
      if c = ']' then jbAux s dpt fuel ((cd + 1) % U32) (fmoveback pos 1)
      else if c = '[' then
        if cd = dpt then some pos
        else jbAux s dpt fuel ((cd + (U32 - 1)) % U32) (fmoveback pos 1)
      else if c = ')' then
        match ffindc_matching s ')' '(' (-1) fuel pos with
        | none => none
        | some p => jbAux s dpt fuel cd (fmoveback p 1)
      else jbAux s dpt fuel cd (fmoveback pos 1)

/-- jump_backward(file): if the current cell is zero just decrement the
global depth (no lower bound test: unsigned wraparound) and return;
otherwise step back one byte, scan backward for the matching '[', then
decrement depth and step one byte before the found '[' so that the
instruction step that follows re-reads it. -/
def jump_backward (s : List Char) (cellv : Nat) (dpt : Nat) (pos : Nat)
    (fuel : Nat) : Option (Nat × Nat) :=
  if cellv = 0 then some ((dpt + (U32 - 1)) % U32, pos)
  else
    (jbAux s dpt fuel dpt (fmoveback pos 1)).map
      fun p => ((dpt + (U32 - 1)) % U32, fmoveback p 1)

/-- Interpreter session state: the tape (cell values are bytes, kept in
the range below 256), the tape pointer offset stackptr - stack (an int:
it can transiently leave the valid range), the global loop depth, the
file cursor, and the byte streams of the run. -/
structure St where
  tape : Nat → Nat
  ptr : Int
  depth : Nat
  pos : Nat
  output : List Nat
  input : List Nat

/-- Initial session state: tape of zeros, pointer at cell 0, depth 0,
cursor at byte 0. -/
def initSt (input : List Nat) : St :=
  { tape := fun _ => 0, ptr := 0, depth := 0, pos := 0, output := [], input := input }

/-- Dereference the tape pointer. -/
def readTape (tape : Nat → Nat) (ptr : Int) : Nat := tape ptr.toNat

/-- Write through the tape pointer. -/
def writeTape (tape : Nat → Nat) (ptr : Int) (v : Nat) : Nat → Nat :=
  fun k => if k = ptr.toNat then v else tape k

/-- input_byte(): first byte of the next input line, or 0 when input is
exhausted. -/
def input_byte (inp : List Nat) : Nat × List Nat :=
  match inp with
  | [] => (0, [])
  | b :: rest => (b % 256, rest)

/-- The switch statement of interpret_file: effect of one command byte.
Returns none when a scan runs out of fuel, an error for the default
(unknown character) case, or the updated state; the cursor advance of one
byte that follows every dispatched command is applied by the caller. -/
def run_command (s : List Char) (fuel : Nat) (st : St) (c : Char) :
    Option (Error ⊕ St) :=
  if c = '>' then some (.inr { st with ptr := st.ptr + 1 })
  else if c = '<' then some (.inr { st with ptr := st.ptr - 1 })
  else if c = '+' then
    some (.inr { st with tape := writeTape st.tape st.ptr ((readTape st.tape st.ptr + 1) % 256) })
  else if c = '-' then
    some (.inr { st with tape := writeTape st.tape st.ptr ((readTape st.tape st.ptr + 255) % 256) })
  else if c = '.' then
    some (.inr { st with output := st.output ++ [readTape st.tape st.ptr] })
  else if c = ',' then
    some (.inr { st with tape := writeTape st.tape st.ptr (input_byte st.input).1,
                         input := (input_byte st.input).2 })
  else if c = '[' then
    (jump_forward s (readTape st.tape st.ptr) st.depth st.pos fuel).map
      fun dp => .inr { st with depth := dp.1, pos := dp.2 }
  else if c = ']' then
    (jump_backward s (readTape st.tape st.ptr) st.depth st.pos fuel).map
      fun dp => .inr { st with depth := dp.1, pos := dp.2 }
  else if c = '\n' ∨ c = Char.ofNat 0 then some (.inr st)
  else if c = '(' then
    (ffindc_matching s '(' ')' 1 fuel st.pos).map fun p => .inr { st with pos := p }
  else if c = ')' then some (.inr st)
  else if c = '#' then some (.inr { st with pos := ffindc s '\n' st.pos })
  else if c = ' ' ∨ c = '\r' ∨ c = '\t' then some (.inr st)
  else some (.inl ERR_UNKNOWN_CHAR)

/-- interpret_file(file): the main dispatch loop.  Each iteration reads
the byte under the cursor (exiting with ERR_OK at end of source), checks
the tape pointer bounds (clamping the pointer to the nearest edge and
aborting with ERR_BOUNDS when it is outside the tape), executes the
command, and advances the cursor one byte.  Fuel bounds the number of
iterations; none models a run that does not finish within the fuel. -/
def interpret_file (s : List Char) : Nat → St → Option (Error × St)
  | 0, _ => none
  | fuel + 1, st =>
    match freadc s st.pos with
    | (none, p1) => some (ERR_OK, { st with pos := p1 })
    | (some c, _) =>
      if st.ptr < 0 then some (ERR_BOUNDS, { st with ptr := 0 })
      else if (STACK_SIZE : Int) ≤ st.ptr then
        some (ERR_BOUNDS, { st with ptr := (STACK_SIZE : Int) - 1 })
      else
        match run_command s fuel st c with
        | none => none
        | some (.inl e) => some (e, st)
        | some (.inr st') => interpret_file s fuel { st' with pos := st'.pos + 1 }

/-- Loop of check_matching_brackets: walk the whole source, counting
level up on the opening delimiter and down on the closing one (a C int,
it may go negative), and bumping the shared byte counter once per byte. -/
def cmbAux (opn cls : Char) : List Char → Int → Int → Int × Int
  | [], level, w => (level, w)
  | c :: rest, level, w =>
    cmbAux opn cls rest
      (if c = opn then level + 1 else if c = cls then level - 1 else level) (w + 1)

/-- check_matching_brackets(file, open, close, where): scan the entire
source from the start, then rewind; report ERR_MATCHING_BRACKET when the
level is nonzero at end of source, together with the updated shared byte
counter. -/
def check_matching_brackets (s : List Char) (opn cls : Char) (w : Int) : Error × Int :=
  let r := cmbAux opn cls s 0 w
  (if r.1 ≠ 0 then ERR_MATCHING_BRACKET else ERR_OK, r.2)

/-- readfile(filename), after the file has been opened: run the two
validation passes (brackets, then parens, sharing one byte counter with
short-circuit evaluation); on failure report ERR_MATCHING_BRACKET and the
counter without executing anything; on success run the interpreter.
Returns the error, the final shared counter, and the final state. -/
def readfile (s : List Char) (input : List Nat) (fuel : Nat) :
    Option (Error × Int × St) :=
  let c1 := check_matching_brackets s '[' ']' 0
  if c1.1 ≠ ERR_OK then some (ERR_MATCHING_BRACKET, c1.2, initSt input)
  else
    let c2 := check_matching_brackets s '(' ')' c1.2
    if c2.1 ≠ ERR_OK then some (ERR_MATCHING_BRACKET, c2.2, initSt input)
    else
      match interpret_file s fuel (initSt input) with
      | none => none
      | some (e, st) => some (e, c2.2, st)

/-!  Specification-side definitions used to state the claims.  -/

/-- Number of occurrences of the character x among the source positions
in the half open interval from a (inclusive) to b (exclusive). -/
def cntB (x : Char) (s : List Char) (a : Nat) : Nat → Nat
  | 0 => 0
  | b + 1 => cntB x s a b + (if a ≤ b ∧ s.get? b = some x then 1 else 0)

/-- Position q holds the closing delimiter matching the opening delimiter
at position p: between them (exclusive) opens and closes balance out, and
every intermediate prefix keeps strictly more opens than closes. -/
def MatchedPair (s : List Char) (o c : Char) (p q : Nat) : Prop :=
  p < q ∧ s.get? p = some o ∧ s.get? q = some c ∧
  cntB o s p q = cntB c s p q + 1 ∧
  ∀ r, r ≤ q → p < r → cntB c s p r < cntB o s p r

/-- Well formed segment of source between positions a (inclusive) and b
(exclusive), as traversed by the bracket scans: a sequence of plain bytes
(anything but the two bracket and the two paren characters), complete
bracketed loops, and paren comment spans whose contents are opaque. -/
inductive Seg (s : List Char) : Nat → Nat → Prop
  | nil (a : Nat) : Seg s a a
  | atom (a b : Nat) (c : Char) : s.get? a = some c →
      c ≠ '[' → c ≠ ']' → c ≠ '(' → c ≠ ')' →
      Seg s (a + 1) b → Seg s a b
  | loop (a m b : Nat) : s.get? a = some '[' → s.get? m = some ']' →
      Seg s (a + 1) m → Seg s (m + 1) b → Seg s a b
  | comment (a m b : Nat) : MatchedPair s '(' ')' a m →
      Seg s (m + 1) b → Seg s a b

/-- The bracket at position j is the closing bracket matching the opening
bracket at position i: the body between them is a well formed segment. -/
def BracketMatch (s : List Char) (i j : Nat) : Prop :=
  s.get? i = some '[' ∧ s.get? j = some ']' ∧ Seg s (i + 1) j

/-- Reference semantics for C7: pointer movement of one command. -/
def refStep (c : Char) (p : Int) : Int :=
  if c = '>' then p + 1 else if c = '<' then p - 1 else p

/-- Reference semantics for C7: final pointer position of a program of
arithmetic and move commands. -/
def refPos : List Char → Int → Int
  | [], p => p
  | c :: r, p => refPos r (refStep c p)

/-- Reference semantics for C7: net number of increments minus decrements
applied to cell k by a program of arithmetic and move commands started
with the pointer at p. -/
def refNet : List Char → Int → Nat → Int
  | [], _, _ => 0
  | c :: r, p, k =>
    (if c = '+' then (if p = (k : Int) then 1 else 0)
     else if c = '-' then (if p = (k : Int) then -1 else 0)
     else 0) + refNet r (refStep c p) k

/-- The program consists only of the four arithmetic and move commands. -/
def onlyArith : List Char → Bool
  | [] => true
  | c :: r => (c = '+' || c = '-' || c = '>' || c = '<') && onlyArith r

/-- Every pointer position along the run (including the initial and the
final one) lies inside the tape. -/
def inBoundsPath : List Char → Int → Bool
  | [], p => decide (0 ≤ p ∧ p < (STACK_SIZE : Int))
  | c :: r, p => (decide (0 ≤ p ∧ p < (STACK_SIZE : Int))) && inBoundsPath r (refStep c p)

/-!  Basic lemmas about cursor motion and reads.  -/

theorem fmove_one (p : Nat) : fmove p 1 = p + 1 := by
  unfold fmove
  rw [if_neg (Int.not_lt.mpr (Int.add_nonneg (Int.natCast_nonneg p) Int.one_nonneg)),
    Int.toNat_add (Int.natCast_nonneg p) Int.one_nonneg, Int.toNat_natCast, Int.toNat_one]

theorem fmove_neg_one (p : Nat) : fmove p (-1) = p - 1 := by
  unfold fmove
  rcases Nat.eq_zero_or_pos p with h | h
  · subst h
    rw [if_pos (by decide)]
  · have hp1 : 1 ≤ p := h
    have h1 : (0 : Int) ≤ (p : Int) + -1 := by
      show (0 : Int) ≤ (p : Int) - 1
      exact Int.sub_nonneg.mpr (by exact_mod_cast hp1)
    rw [if_neg (Int.not_lt.mpr h1)]
    show ((p : Int) - ((1 : Nat) : Int)).toNat = p - 1
    exact Int.toNat_sub p 1

theorem fmoveback_one (p : Nat) : fmoveback p 1 = p - 1 := by
  unfold fmoveback
  exact fmove_neg_one p

theorem freadc_eq_some {s : List Char} {pos : Nat} {c : Char}
    (h : s.get? pos = some c) : freadc s pos = (some c, pos) := by
  unfold freadc
  rw [h]

theorem freadc_eq_none {s : List Char} {pos : Nat}
    (h : s.get? pos = none) : freadc s pos = (none, pos - 1) := by
  unfold freadc
  rw [h, fmove_neg_one]

theorem get?_some_lt {s : List Char} {pos : Nat} {c : Char}
    (h : s.get? pos = some c) : pos < s.length := by
  by_contra hge
  rw [List.get?_eq_none.mpr (Nat.le_of_not_lt hge)] at h
  exact Option.noConfusion h

/-!  Arithmetic of the unsigned depth counters.  -/

theorem u32_pos : 0 < U32 := by decide

theorem mod_inc (d k : Nat) : ((d + k) % U32 + 1) % U32 = (d + (k + 1)) % U32 := by
  have h1 : 1 % U32 = 1 := by decide
  conv_rhs => rw [← Nat.add_assoc]
  rw [Nat.add_mod (d + k) 1, h1]

theorem mod_dec (d k : Nat) :
    ((d + (k + 1)) % U32 + (U32 - 1)) % U32 = (d + k) % U32 := by
  have h1 : (U32 - 1) % U32 = U32 - 1 := by decide
  have h2 : d + (k + 1) + (U32 - 1) = d + k + U32 := by
    rw [← Nat.add_assoc d k 1, Nat.add_assoc (d + k) 1 (U32 - 1),
      Nat.add_sub_cancel' u32_pos]
  calc ((d + (k + 1)) % U32 + (U32 - 1)) % U32
      = ((d + (k + 1)) % U32 + (U32 - 1) % U32) % U32 := by rw [h1]
    _ = (d + (k + 1) + (U32 - 1)) % U32 := (Nat.add_mod _ _ _).symm
    _ = (d + k + U32) % U32 := by rw [h2]
    _ = (d + k) % U32 := Nat.add_mod_right _ _

theorem mod_ne (d k : Nat) (hd : d < U32) (hk0 : k ≠ 0) (hk : k < U32) :
    (d + k) % U32 ≠ d := by
  intro h
  rcases Nat.lt_or_ge (d + k) U32 with hlt | hge
  · rw [Nat.mod_eq_of_lt hlt] at h
    exact hk0 (Nat.add_left_cancel (h.trans (Nat.add_zero d).symm))
  · have hlt2 : d + k - U32 < U32 :=
      (Nat.sub_lt_iff_lt_add hge).mpr (Nat.add_lt_add hd hk)
    rw [Nat.mod_eq_sub_mod hge, Nat.mod_eq_of_lt hlt2] at h
    have h3 : d + k = d + U32 := (Nat.sub_eq_iff_eq_add hge).mp h
    exact absurd (Nat.add_left_cancel h3) (Nat.ne_of_lt hk)

theorem mod_eq_self (d : Nat) (hd : d < U32) : (d + 0) % U32 = d := by
  rw [Nat.add_zero, Nat.mod_eq_of_lt hd]

theorem mod_pred (d : Nat) (hd1 : 1 ≤ d) (hd : d < U32) :
    (d + (U32 - 1)) % U32 = d - 1 := by
  have h1 : d + (U32 - 1) = (d - 1) + U32 := by
    nth_rewrite 1 [← Nat.succ_pred_eq_of_pos hd1]
    rw [Nat.succ_eq_add_one, Nat.pred_eq_sub_one,
      Nat.add_assoc (d - 1) 1 (U32 - 1), Nat.add_sub_cancel' u32_pos]
  rw [h1, Nat.add_mod_right,
    Nat.mod_eq_of_lt (Nat.lt_of_le_of_lt (Nat.sub_le d 1) hd)]

/-!  Small arithmetic helpers used to discharge the recurring side
conditions of the scan proofs.  -/

theorem exists_succ_of_le {a b : Nat} (h : a + 1 ≤ b) : ∃ c, b = c + 1 :=
  ⟨b - 1, (Nat.succ_pred_eq_of_pos (Nat.lt_of_lt_of_le (Nat.zero_lt_succ a) h)).symm⟩

theorem sub_fuel_step {q r fuel : Nat} (hlt : r < q) (hf : q - r < fuel + 1) :
    q - (r + 1) < fuel :=
  Nat.lt_of_lt_of_le (Nat.sub_succ_lt_self q r hlt) (Nat.le_of_lt_succ hf)

theorem sub_fuel_stepL {p r fuel : Nat} (hlt : p < r) (hf : r - p < fuel + 1) :
    r - 1 - p < fuel := by
  rw [Nat.sub_right_comm]
  exact Nat.lt_of_lt_of_le (Nat.sub_lt (Nat.sub_pos_of_lt hlt) Nat.one_pos)
    (Nat.le_of_lt_succ hf)

theorem seg_bound_atom {a b k : Nat} (h : k + (b - a) < U32) :
    k + (b - (a + 1)) < U32 :=
  Nat.lt_of_le_of_lt (Nat.add_le_add_left (Nat.sub_le_sub_left (Nat.le_succ a) b) k) h

theorem seg_bounds {a m b k : Nat} (h1 : a + 1 ≤ m) (h2 : m + 1 ≤ b)
    (h3 : k + (b - a) < U32) :
    (k + 1) + (m - (a + 1)) < U32 ∧ k + (b - (m + 1)) < U32 ∧ k + 1 < U32 := by
  omega

theorem scan_init_bound {j L : Nat} (i : Nat) (hj : j < L) (hL : L < U32) :
    0 + (j - (i + 1)) < U32 := by
  rw [Nat.zero_add]
  exact Nat.lt_trans (Nat.lt_of_le_of_lt (Nat.sub_le _ _) hj) hL

theorem cast_mod_succ (t : Nat) (N : Int) :
    ((((t + 1) % 256 : Nat) : Int) + N) % 256 = ((t : Int) + (1 + N)) % 256 := by
  push_cast
  rw [Int.emod_add_emod, Int.add_assoc]

theorem cast_mod_pred (t : Nat) (N : Int) :
    ((((t + 255) % 256 : Nat) : Int) + N) % 256 = ((t : Int) + (-1 + N)) % 256 := by
  push_cast
  rw [Int.emod_add_emod]
  have h : (t : Int) + 255 + N = (t : Int) + (-1 + N) + 256 := by ring
  rw [h, Int.add_emod_self]

/-!  Counting lemmas for the matching predicate.  -/

theorem cntB_of_le (x : Char) (s : List Char) :
    ∀ b a, b ≤ a → cntB x s a b = 0 := by
  intro b
  induction b with
  | zero => intro a _; rfl
  | succ b ih =>
    intro a h
    unfold cntB
    rw [if_neg (fun hc => absurd hc.1 (Nat.not_le.mpr (Nat.lt_of_succ_le h))),
      ih a (Nat.le_of_succ_le h), Nat.add_zero]

theorem cntB_succ (x : Char) (s : List Char) (a b : Nat) :
    cntB x s a (b + 1) =
      cntB x s a b + (if a ≤ b ∧ s.get? b = some x then 1 else 0) := rfl

theorem cntB_split (x : Char) (s : List Char) :
    ∀ b m a, a ≤ m → m ≤ b → cntB x s a b = cntB x s a m + cntB x s m b := by
  intro b
  induction b with
  | zero =>
    intro m a ham hmb
    have hm0 : m = 0 := Nat.le_zero.mp hmb
    subst hm0
    rw [cntB_of_le x s 0 0 (le_refl 0), Nat.add_zero]
  | succ b ih =>
    intro m a ham hmb
    rcases Nat.eq_or_lt_of_le hmb with he | hl
    · subst he
      rw [cntB_of_le x s (b + 1) (b + 1) (le_refl _)]
      exact (Nat.add_zero _).symm
    · have hmb' : m ≤ b := Nat.lt_succ_iff.mp hl
      rw [cntB_succ, cntB_succ, ih m a ham hmb']
      by_cases hP : s.get? b = some x
      · rw [if_pos ⟨Nat.le_trans ham hmb', hP⟩, if_pos ⟨hmb', hP⟩]
        exact Nat.add_assoc _ _ _
      · rw [if_neg (fun hc => hP hc.2), if_neg (fun hc => hP hc.2)]
        exact Nat.add_assoc _ _ _

theorem cntB_succ_left (x : Char) (s : List Char) {a b : Nat} (h : a < b) :
    cntB x s a b = (if s.get? a = some x then 1 else 0) + cntB x s (a + 1) b := by
  rw [cntB_split x s b (a + 1) a (Nat.le_succ a) h]
  congr 1
  rw [cntB_succ, cntB_of_le x s a a (le_refl a), Nat.zero_add]
  by_cases hP : s.get? a = some x
  · rw [if_pos ⟨le_refl a, hP⟩, if_pos hP]
  · rw [if_neg (fun hc => hP hc.2), if_neg hP]

/-!  One step unfolding lemmas for the scan loops and the dispatcher.  -/

theorem ffmAux_some {s : List Char} {pos : Nat} {v : Char}
    (c1 c2 : Char) (dir : Int) (fuel : Nat) (d : Int)
    (h : s.get? pos = some v) :
    ffmAux s c1 c2 dir (fuel + 1) d pos =
      if v = c1 then ffmAux s c1 c2 dir fuel (d + 1) (fmove pos dir)
      else if v = c2 then
        if d = 1 then some pos
        else ffmAux s c1 c2 dir fuel (d - 1) (fmove pos dir)
      else ffmAux s c1 c2 dir fuel d (fmove pos dir) := by
  simp only [ffmAux]
  rw [freadc_eq_some h]

theorem ffmAux_none {s : List Char} {pos : Nat}
    (c1 c2 : Char) (dir : Int) (fuel : Nat) (d : Int)
    (h : s.get? pos = none) :
    ffmAux s c1 c2 dir (fuel + 1) d pos = some (pos - 1) := by
  simp only [ffmAux]
  rw [freadc_eq_none h]

theorem jfAux_some {s : List Char} {pos : Nat} {v : Char}
    (dpt fuel cd : Nat) (h : s.get? pos = some v) :
    jfAux s dpt (fuel + 1) cd pos =
      if v = '[' then jfAux s dpt fuel ((cd + 1) % U32) (fmove pos 1)
      else if v = ']' then
        if cd = dpt then some pos
        else jfAux s dpt fuel ((cd + (U32 - 1)) % U32) (fmove pos 1)
      else if v = '(' then
        match ffindc_matching s '(' ')' 1 fuel pos with
        | none => none
        | some p => jfAux s dpt fuel cd (fmove p 1)
      else jfAux s dpt fuel cd (fmove pos 1) := by
  simp only [jfAux]
  rw [freadc_eq_some h]

theorem jfAux_none {s : List Char} {pos : Nat} (dpt fuel cd : Nat)
    (h : s.get? pos = none) :
    jfAux s dpt (fuel + 1) cd pos = some (pos - 1) := by
  simp only [jfAux]
  rw [freadc_eq_none h]

theorem jbAux_some {s : List Char} {pos : Nat} {v : Char}
    (dpt fuel cd : Nat) (h : s.get? pos = some v) :
    jbAux s dpt (fuel + 1) cd pos =
      if v = ']' then jbAux s dpt fuel ((cd + 1) % U32) (fmoveback pos 1)
      else if v = '[' then
        if cd = dpt then some pos
        else jbAux s dpt fuel ((cd + (U32 - 1)) % U32) (fmoveback pos 1)
      else if v = ')' then
        match ffindc_matching s ')' '(' (-1) fuel pos with
        | none => none
        | some p => jbAux s dpt fuel cd (fmoveback p 1)
      else jbAux s dpt fuel cd (fmoveback pos 1) := by
  simp only [jbAux]
  rw [freadc_eq_some h]

theorem interpret_file_eof {s : List Char} {st : St} (fuel : Nat)
    (h : s.get? st.pos = none) :
    interpret_file s (fuel + 1) st = some (ERR_OK, { st with pos := st.pos - 1 }) := by
  simp only [interpret_file]
  rw [freadc_eq_none h]

theorem interpret_file_low {s : List Char} {st : St} {c : Char} (fuel : Nat)
    (h : s.get? st.pos = some c) (h0 : st.ptr < 0) :
    interpret_file s (fuel + 1) st = some (ERR_BOUNDS, { st with ptr := 0 }) := by
  simp only [interpret_file]
  rw [freadc_eq_some h]
  show (if st.ptr < 0 then _ else _) = _
  rw [if_pos h0]

theorem interpret_file_step {s : List Char} {st : St} {c : Char} (fuel : Nat)
    (h : s.get? st.pos = some c) (h0 : ¬ st.ptr < 0)
    (h1 : ¬ (STACK_SIZE : Int) ≤ st.ptr) :
    interpret_file s (fuel + 1) st =
      match run_command s fuel st c with
      | none => none
      | some (.inl e) => some (e, st)
      | some (.inr st') => interpret_file s fuel { st' with pos := st'.pos + 1 } := by
  simp only [interpret_file]
  rw [freadc_eq_some h]
  show (if st.ptr < 0 then _ else _) = _
  rw [if_neg h0, if_neg h1]

/-!  Single byte counting steps.  -/

theorem cntB_step (x : Char) (s : List Char) {a r : Nat} (ha : a ≤ r)
    {v : Char} (hv : s.get? r = some v) :
    cntB x s a (r + 1) = cntB x s a r + (if v = x then 1 else 0) := by
  rw [cntB_succ]
  congr 1
  by_cases h1 : v = x
  · rw [if_pos ⟨ha, by rw [hv, h1]⟩, if_pos h1]
  · rw [if_neg (fun hc => h1 (Option.some.inj (hv.symm.trans hc.2))), if_neg h1]

theorem cntB_stepL (x : Char) (s : List Char) {r b : Nat} (hrb : r < b)
    {v : Char} (hv : s.get? r = some v) :
    cntB x s r b = (if v = x then 1 else 0) + cntB x s (r + 1) b := by
  rw [cntB_succ_left x s hrb]
  congr 1
  by_cases h1 : v = x
  · rw [if_pos (by rw [hv, h1]), if_pos h1]
  · rw [if_neg (fun hc => h1 (Option.some.inj (hv.symm.trans hc))), if_neg h1]

/-!  Correctness of the forward paren scan of ffindc_matching.  -/

theorem ffmAux_fwd {s : List Char} {o c : Char} {p q : Nat} (ho : o ≠ c)
    (hm : MatchedPair s o c p q) :
    ∀ fuel r, p ≤ r → r ≤ q → q - r < fuel →
      ffmAux s o c 1 fuel ((cntB o s p r : Int) - (cntB c s p r : Int)) r = some q := by
  obtain ⟨hpq, hgp, hgq, hbal, hpre⟩ := hm
  have hqlen : q < s.length := get?_some_lt hgq
  intro fuel
  induction fuel with
  | zero => intro r hpr hrq hf; exact absurd hf (Nat.not_lt_zero _)
  | succ fuel ih =>
    intro r hpr hrq hf
    rcases Nat.eq_or_lt_of_le hrq with he | hlt
    · subst he
      have hd : (cntB o s p r : Int) - (cntB c s p r : Int) = 1 := by
        rw [hbal, Nat.cast_add, Nat.cast_one]
        exact add_sub_cancel_left _ _
      rw [ffmAux_some o c 1 fuel _ hgq, if_neg (fun hh => ho hh.symm),
        if_pos rfl, if_pos hd]
    · have hrlen : r < s.length := Nat.lt_trans hlt hqlen
      have hvr := List.get?_eq_get hrlen
      set vr := s.get ⟨r, hrlen⟩ with hvrdef
      have hco := cntB_step o s hpr hvr
      have hcc := cntB_step c s hpr hvr
      rw [ffmAux_some o c 1 fuel _ hvr, fmove_one]
      by_cases h1 : vr = o
      · rw [if_pos h1]
        have heq : (cntB o s p r : Int) - (cntB c s p r : Int) + 1 =
            (cntB o s p (r + 1) : Int) - (cntB c s p (r + 1) : Int) := by
          rw [if_pos h1] at hco
          rw [if_neg (fun hh => ho (h1.symm.trans hh)),
            Nat.add_zero (cntB c s p r)] at hcc
          rw [hco, hcc, Nat.cast_add, Nat.cast_one, sub_add_eq_add_sub]
        rw [heq]
        exact ih (r + 1) (Nat.le_succ_of_le hpr) hlt (sub_fuel_step hlt hf)
      · by_cases h2 : vr = c
        · rw [if_neg h1, if_pos h2]
          rw [if_neg h1, Nat.add_zero (cntB o s p r)] at hco
          rw [if_pos h2] at hcc
          have hpre' := hpre (r + 1) hlt (Nat.lt_succ_of_le hpr)
          rw [hco, hcc] at hpre'
          have hd1 : ¬ ((cntB o s p r : Int) - (cntB c s p r : Int) = 1) := by
            intro hcontra
            have hA2 : (cntB o s p r : Int) = 1 + (cntB c s p r : Int) :=
              sub_eq_iff_eq_add.mp hcontra
            have hlt2 : (cntB c s p r : Int) + 1 < 1 + (cntB c s p r : Int) := by
              rw [← hA2]
              exact_mod_cast hpre'
            rw [Int.add_comm] at hlt2
            exact lt_irrefl _ hlt2
          rw [if_neg hd1]
          have heq : (cntB o s p r : Int) - (cntB c s p r : Int) - 1 =
              (cntB o s p (r + 1) : Int) - (cntB c s p (r + 1) : Int) := by
            rw [hco, hcc, Nat.cast_add, Nat.cast_one, Int.sub_sub]
          rw [heq]
          exact ih (r + 1) (Nat.le_succ_of_le hpr) hlt (sub_fuel_step hlt hf)
        · rw [if_neg h1, if_neg h2]
          rw [if_neg h1, Nat.add_zero (cntB o s p r)] at hco
          rw [if_neg h2, Nat.add_zero (cntB c s p r)] at hcc
          have heq : (cntB o s p r : Int) - (cntB c s p r : Int) =
              (cntB o s p (r + 1) : Int) - (cntB c s p (r + 1) : Int) := by
            rw [hco, hcc]
          rw [heq]
          exact ih (r + 1) (Nat.le_succ_of_le hpr) hlt (sub_fuel_step hlt hf)

/-!  Correctness of the backward paren scan of ffindc_matching.  -/

theorem ffmAux_bwd {s : List Char} {o c : Char} {p q : Nat} (ho : o ≠ c)
    (hm : MatchedPair s o c p q) :
    ∀ fuel r, p ≤ r → r ≤ q → r - p < fuel →
      ffmAux s c o (-1) fuel
        ((cntB c s (r + 1) (q + 1) : Int) - (cntB o s (r + 1) (q + 1) : Int)) r = some p := by
  obtain ⟨hpq, hgp, hgq, hbal, hpre⟩ := hm
  have hqlen : q < s.length := get?_some_lt hgq
  have hA : cntB o s p (q + 1) = cntB c s p (q + 1) := by
    have h1 : cntB o s p (q + 1) = cntB o s p q := by
      rw [cntB_step o s (le_of_lt hpq) hgq,
        if_neg (fun hh => ho hh.symm), Nat.add_zero]
    have h2 : cntB c s p (q + 1) = cntB c s p q + 1 := by
      rw [cntB_step c s (le_of_lt hpq) hgq, if_pos rfl]
    rw [h1, h2, hbal]
  have hrel : ∀ r, p ≤ r → r ≤ q →
      (cntB c s (r + 1) (q + 1) : Int) - (cntB o s (r + 1) (q + 1) : Int) =
      (cntB o s p (r + 1) : Int) - (cntB c s p (r + 1) : Int) := by
    intro r h1 h2
    have so := cntB_split o s (q + 1) (r + 1) p (Nat.le_succ_of_le h1) (Nat.succ_le_succ h2)
    have sc := cntB_split c s (q + 1) (r + 1) p (Nat.le_succ_of_le h1) (Nat.succ_le_succ h2)
    have hnat : cntB o s p (r + 1) + cntB o s (r + 1) (q + 1) =
        cntB c s p (r + 1) + cntB c s (r + 1) (q + 1) := by
      rw [← so, ← sc, hA]
    have hnat2 : cntB c s (r + 1) (q + 1) + cntB c s p (r + 1) =
        cntB o s p (r + 1) + cntB o s (r + 1) (q + 1) :=
      (Nat.add_comm _ _).trans hnat.symm
    rw [sub_eq_sub_iff_add_eq_add]
    exact_mod_cast hnat2
  intro fuel
  induction fuel with
  | zero => intro r hpr hrq hf; exact absurd hf (Nat.not_lt_zero _)
  | succ fuel ih =>
    intro r hpr hrq hf
    rcases Nat.eq_or_lt_of_le hpr with he | hlt
    · -- the cursor is back on the matching opening delimiter
      subst he
      have hd : (cntB c s (p + 1) (q + 1) : Int) - (cntB o s (p + 1) (q + 1) : Int) = 1 := by
        rw [hrel p (le_refl p) (le_of_lt hpq)]
        have h1 : cntB o s p (p + 1) = 1 := by
          rw [cntB_step o s (le_refl p) hgp, if_pos rfl,
            cntB_of_le o s p p (le_refl p)]
        have h2 : cntB c s p (p + 1) = 0 := by
          rw [cntB_step c s (le_refl p) hgp, if_neg ho,
            cntB_of_le c s p p (le_refl p)]
        rw [h1, h2, Nat.cast_one, Nat.cast_zero, Int.sub_zero]
      rw [ffmAux_some c o (-1) fuel _ hgp, if_neg ho, if_pos rfl, if_pos hd]
    · have hrlen : r < s.length := Nat.lt_of_le_of_lt hrq hqlen
      have hvr := List.get?_eq_get hrlen
      set vr := s.get ⟨r, hrlen⟩ with hvrdef
      have hr1 : r - 1 + 1 = r :=
        Nat.succ_pred_eq_of_pos (Nat.lt_of_le_of_lt (Nat.zero_le p) hlt)
      have hsc := cntB_stepL c s (show r < q + 1 from Nat.lt_succ_of_le hrq) hvr
      have hso := cntB_stepL o s (show r < q + 1 from Nat.lt_succ_of_le hrq) hvr
      rw [ffmAux_some c o (-1) fuel _ hvr, fmove_neg_one]
      by_cases h1 : vr = c
      · rw [if_pos h1]
        rw [if_pos h1] at hsc
        rw [if_neg (fun hh => ho (hh.symm.trans h1)),
          Nat.zero_add (cntB o s (r + 1) (q + 1))] at hso
        have heq : (cntB c s (r + 1) (q + 1) : Int) - (cntB o s (r + 1) (q + 1) : Int) + 1 =
            (cntB c s (r - 1 + 1) (q + 1) : Int) - (cntB o s (r - 1 + 1) (q + 1) : Int) := by
          rw [hr1, hsc, hso, Nat.cast_add, Nat.cast_one, sub_add_eq_add_sub]
          congr 1
          exact Int.add_comm _ _
        rw [heq]
        exact ih (r - 1) (Nat.le_pred_of_lt hlt) (Nat.le_trans (Nat.sub_le r 1) hrq) (sub_fuel_stepL hlt hf)
      · by_cases h2 : vr = o
        · rw [if_neg h1, if_pos h2]
          -- the local counter cannot be 1 strictly inside the span
          rw [if_neg h1, Nat.zero_add (cntB c s (r + 1) (q + 1))] at hsc
          rw [if_pos h2] at hso
          have hstep_o := cntB_step o s (le_of_lt hlt) hvr
          have hstep_c := cntB_step c s (le_of_lt hlt) hvr
          rw [if_pos h2] at hstep_o
          rw [if_neg h1, Nat.add_zero (cntB c s p r)] at hstep_c
          have hpre' := hpre r hrq hlt
          have hd1 : ¬ ((cntB c s (r + 1) (q + 1) : Int) -
              (cntB o s (r + 1) (q + 1) : Int) = 1) := by
            rw [hrel r (le_of_lt hlt) hrq, hstep_o, hstep_c]
            intro hcontra
            have h5 : ((cntB o s p r + 1 : Nat) : Int) = 1 + (cntB c s p r : Int) :=
              sub_eq_iff_eq_add.mp hcontra
            rw [Nat.cast_add, Nat.cast_one,
              Int.add_comm 1 (cntB c s p r : Int)] at h5
            have h6 : (cntB o s p r : Int) = (cntB c s p r : Int) := add_right_cancel h5
            have h7 : cntB o s p r = cntB c s p r := by exact_mod_cast h6
            rw [h7] at hpre'
            exact lt_irrefl _ hpre'
          rw [if_neg hd1]
          have heq : (cntB c s (r + 1) (q + 1) : Int) -
              (cntB o s (r + 1) (q + 1) : Int) - 1 =
              (cntB c s (r - 1 + 1) (q + 1) : Int) -
              (cntB o s (r - 1 + 1) (q + 1) : Int) := by
            rw [hr1, hsc, hso, Int.sub_sub, Nat.cast_add, Nat.cast_one]
            congr 1
            exact Int.add_comm _ _
          rw [heq]
          exact ih (r - 1) (Nat.le_pred_of_lt hlt) (Nat.le_trans (Nat.sub_le r 1) hrq) (sub_fuel_stepL hlt hf)
        · rw [if_neg h1, if_neg h2]
          rw [if_neg h1, Nat.zero_add (cntB c s (r + 1) (q + 1))] at hsc
          rw [if_neg h2, Nat.zero_add (cntB o s (r + 1) (q + 1))] at hso
          have heq : (cntB c s (r + 1) (q + 1) : Int) -
              (cntB o s (r + 1) (q + 1) : Int) =
              (cntB c s (r - 1 + 1) (q + 1) : Int) -
              (cntB o s (r - 1 + 1) (q + 1) : Int) := by
            rw [hr1, hsc, hso]
          rw [heq]
          exact ih (r - 1) (Nat.le_pred_of_lt hlt) (Nat.le_trans (Nat.sub_le r 1) hrq) (sub_fuel_stepL hlt hf)

/-!  Entry point corollaries for ffindc_matching.  -/

theorem ffindc_matching_fwd {s : List Char} {o c : Char} {p q : Nat}
    (ho : o ≠ c) (hm : MatchedPair s o c p q) :
    ∀ fuel, q - p < fuel → ffindc_matching s o c 1 fuel p = some q := by
  intro fuel hf
  unfold ffindc_matching
  rw [if_neg (by decide)]
  have h0 : (0 : Int) = (cntB o s p p : Int) - (cntB c s p p : Int) := by
    rw [cntB_of_le o s p p (le_refl p), cntB_of_le c s p p (le_refl p),
      Nat.cast_zero, Int.sub_zero]
  rw [h0]
  exact ffmAux_fwd ho hm fuel p (le_refl p) (le_of_lt hm.1) hf

theorem ffindc_matching_bwd {s : List Char} {o c : Char} {p q : Nat}
    (ho : o ≠ c) (hm : MatchedPair s o c p q) :
    ∀ fuel, q - p < fuel → ffindc_matching s c o (-1) fuel q = some p := by
  intro fuel hf
  unfold ffindc_matching
  rw [if_pos (by decide)]
  have h0 : (0 : Int) =
      (cntB c s (q + 1) (q + 1) : Int) - (cntB o s (q + 1) (q + 1) : Int) := by
    rw [cntB_of_le c s (q + 1) (q + 1) (le_refl _),
      cntB_of_le o s (q + 1) (q + 1) (le_refl _),
      Nat.cast_zero, Int.sub_zero]
  rw [h0]
  exact ffmAux_bwd ho hm fuel q (le_of_lt hm.1) (le_refl q) hf

/-!  Fuel monotonicity: a scan that finishes keeps its answer when given
more fuel.  -/

theorem jbAux_none {s : List Char} {pos : Nat} (dpt fuel cd : Nat)
    (h : s.get? pos = none) :
    jbAux s dpt (fuel + 1) cd pos = jbAux s dpt fuel cd (fmoveback (pos - 1) 1) := by
  simp only [jbAux]
  rw [freadc_eq_none h]

theorem ffmAux_mono {s : List Char} {c1 c2 : Char} {dir : Int} :
    ∀ fuel d pos r, ffmAux s c1 c2 dir fuel d pos = some r →
      ∀ fuel', fuel ≤ fuel' → ffmAux s c1 c2 dir fuel' d pos = some r := by
  intro fuel
  induction fuel with
  | zero => intro d pos r h; simp [ffmAux] at h
  | succ fuel ih =>
    intro d pos r h fuel' hf
    obtain ⟨f2, rfl⟩ := exists_succ_of_le hf
    cases hv : s.get? pos with
    | none =>
      rw [ffmAux_none c1 c2 dir fuel d hv] at h
      rw [ffmAux_none c1 c2 dir f2 d hv]
      exact h
    | some v =>
      rw [ffmAux_some c1 c2 dir fuel d hv] at h
      rw [ffmAux_some c1 c2 dir f2 d hv]
      by_cases h1 : v = c1
      · rw [if_pos h1] at h ⊢
        exact ih _ _ _ h f2 (Nat.le_of_succ_le_succ hf)
      · rw [if_neg h1] at h ⊢
        by_cases h2 : v = c2
        · rw [if_pos h2] at h ⊢
          by_cases h3 : d = 1
          · rw [if_pos h3] at h ⊢
            exact h
          · rw [if_neg h3] at h ⊢
            exact ih _ _ _ h f2 (Nat.le_of_succ_le_succ hf)
        · rw [if_neg h2] at h ⊢
          exact ih _ _ _ h f2 (Nat.le_of_succ_le_succ hf)

theorem ffindc_matching_mono {s : List Char} {c1 c2 : Char} {direction : Int}
    {fuel pos : Nat} {r : Nat}
    (h : ffindc_matching s c1 c2 direction fuel pos = some r)
    {fuel' : Nat} (hf : fuel ≤ fuel') :
    ffindc_matching s c1 c2 direction fuel' pos = some r := by
  unfold ffindc_matching at h ⊢
  exact ffmAux_mono _ _ _ _ h _ hf

theorem jfAux_mono {s : List Char} {dpt : Nat} :
    ∀ fuel cd pos r, jfAux s dpt fuel cd pos = some r →
      ∀ fuel', fuel ≤ fuel' → jfAux s dpt fuel' cd pos = some r := by
  intro fuel
  induction fuel with
  | zero => intro cd pos r h; simp [jfAux] at h
  | succ fuel ih =>
    intro cd pos r h fuel' hf
    obtain ⟨f2, rfl⟩ := exists_succ_of_le hf
    cases hv : s.get? pos with
    | none =>
      rw [jfAux_none dpt fuel cd hv] at h
      rw [jfAux_none dpt f2 cd hv]
      exact h
    | some v =>
      rw [jfAux_some dpt fuel cd hv] at h
      rw [jfAux_some dpt f2 cd hv]
      by_cases h1 : v = '['
      · rw [if_pos h1] at h ⊢
        exact ih _ _ _ h f2 (Nat.le_of_succ_le_succ hf)
      · rw [if_neg h1] at h ⊢
        by_cases h2 : v = ']'
        · rw [if_pos h2] at h ⊢
          by_cases h3 : cd = dpt
          · rw [if_pos h3] at h ⊢
            exact h
          · rw [if_neg h3] at h ⊢
            exact ih _ _ _ h f2 (Nat.le_of_succ_le_succ hf)
        · rw [if_neg h2] at h ⊢
          by_cases h3 : v = '('
          · rw [if_pos h3] at h ⊢
            cases hffm : ffindc_matching s '(' ')' 1 fuel pos with
            | none => rw [hffm] at h; simp at h
            | some p =>
              rw [hffm] at h
              rw [ffindc_matching_mono hffm (Nat.le_of_succ_le_succ hf)]
              exact ih _ _ _ h f2 (Nat.le_of_succ_le_succ hf)
          · rw [if_neg h3] at h ⊢
            exact ih _ _ _ h f2 (Nat.le_of_succ_le_succ hf)

theorem jbAux_mono {s : List Char} {dpt : Nat} :
    ∀ fuel cd pos r, jbAux s dpt fuel cd pos = some r →
      ∀ fuel', fuel ≤ fuel' → jbAux s dpt fuel' cd pos = some r := by
  intro fuel
  induction fuel with
  | zero => intro cd pos r h; simp [jbAux] at h
  | succ fuel ih =>
    intro cd pos r h fuel' hf
    obtain ⟨f2, rfl⟩ := exists_succ_of_le hf
    cases hv : s.get? pos with
    | none =>
      rw [jbAux_none dpt fuel cd hv] at h
      rw [jbAux_none dpt f2 cd hv]
      exact ih _ _ _ h f2 (Nat.le_of_succ_le_succ hf)
    | some v =>
      rw [jbAux_some dpt fuel cd hv] at h
      rw [jbAux_some dpt f2 cd hv]
      by_cases h1 : v = ']'
      · rw [if_pos h1] at h ⊢
        exact ih _ _ _ h f2 (Nat.le_of_succ_le_succ hf)
      · rw [if_neg h1] at h ⊢
        by_cases h2 : v = '['
        · rw [if_pos h2] at h ⊢
          by_cases h3 : cd = dpt
          · rw [if_pos h3] at h ⊢
            exact h
          · rw [if_neg h3] at h ⊢
            exact ih _ _ _ h f2 (Nat.le_of_succ_le_succ hf)
        · rw [if_neg h2] at h ⊢
          by_cases h3 : v = ')'
          · rw [if_pos h3] at h ⊢
            cases hffm : ffindc_matching s ')' '(' (-1) fuel pos with
            | none => rw [hffm] at h; simp at h
            | some p =>
              rw [hffm] at h
              rw [ffindc_matching_mono hffm (Nat.le_of_succ_le_succ hf)]
              exact ih _ _ _ h f2 (Nat.le_of_succ_le_succ hf)
          · rw [if_neg h3] at h ⊢
            exact ih _ _ _ h f2 (Nat.le_of_succ_le_succ hf)

/-!  Traversal of well formed segments by the two bracket scans.  -/

theorem seg_le {s : List Char} {a b : Nat} (h : Seg s a b) : a ≤ b := by
  induction h with
  | nil a => exact le_refl a
  | atom a b c hc h1 h2 h3 h4 hseg ih => exact Nat.le_of_succ_le ih
  | loop a m b ha hm hbody htail ih1 ih2 => exact le_of_lt (Nat.lt_trans ih1 ih2)
  | comment a m b hmp htail ih => exact le_of_lt (Nat.lt_trans hmp.1 ih)

theorem jf_seg {s : List Char} {a b : Nat} (hseg : Seg s a b) :
    ∀ dpt k f r, dpt < U32 → k + (b - a) < U32 →
      jfAux s dpt f ((dpt + k) % U32) b = some r →
      ∃ f', jfAux s dpt f' ((dpt + k) % U32) a = some r := by
  induction hseg with
  | nil a => intro dpt k f r _ _ h; exact ⟨f, h⟩
  | atom a b c hc h1 h2 h3 h4 hseg ih =>
    intro dpt k f r hd hk h
    obtain ⟨f1, h₁⟩ := ih dpt k f r hd (seg_bound_atom hk) h
    refine ⟨f1 + 1, ?_⟩
    rw [jfAux_some dpt f1 _ hc, if_neg h1, if_neg h2, if_neg h3, fmove_one]
    exact h₁
  | loop a m b ha hm hbody htail ihb iht =>
    intro dpt k f r hd hk h
    have ham := seg_le hbody
    have hmb := seg_le htail
    obtain ⟨f1, h₁⟩ := iht dpt k f r hd (seg_bounds ham hmb hk).2.1 h
    have h₂ : jfAux s dpt (f1 + 1) ((dpt + (k + 1)) % U32) m = some r := by
      rw [jfAux_some dpt f1 _ hm, if_neg (by decide), if_pos rfl,
        if_neg (mod_ne dpt (k + 1) hd (Nat.succ_ne_zero k)
          (seg_bounds ham hmb hk).2.2), mod_dec, fmove_one]
      exact h₁
    obtain ⟨f2, h₃⟩ := ihb dpt (k + 1) (f1 + 1) r hd (seg_bounds ham hmb hk).1 h₂
    refine ⟨f2 + 1, ?_⟩
    rw [jfAux_some dpt f2 _ ha, if_pos rfl, mod_inc, fmove_one]
    exact h₃
  | comment a m b hmp htail iht =>
    intro dpt k f r hd hk h
    have ham : a < m := hmp.1
    have hmb := seg_le htail
    obtain ⟨f1, h₁⟩ := iht dpt k f r hd (seg_bounds ham hmb hk).2.1 h
    have hF1 : ffindc_matching s '(' ')' 1 (max f1 (m - a + 1)) a = some m :=
      ffindc_matching_fwd (by decide) hmp _
        (Nat.lt_of_succ_le (le_max_right f1 (m - a + 1)))
    refine ⟨max f1 (m - a + 1) + 1, ?_⟩
    rw [jfAux_some dpt _ _ hmp.2.1, if_neg (by decide), if_neg (by decide),
      if_pos rfl, hF1]
    show jfAux s dpt (max f1 (m - a + 1)) ((dpt + k) % U32) (fmove m 1) = some r
    rw [fmove_one]
    exact jfAux_mono _ _ _ _ h₁ _ (le_max_left _ _)

theorem jb_seg {s : List Char} {a b : Nat} (hseg : Seg s a b) :
    ∀ dpt k f r, 1 ≤ a → dpt < U32 → k + (b - a) < U32 →
      jbAux s dpt f ((dpt + k) % U32) (a - 1) = some r →
      ∃ f', jbAux s dpt f' ((dpt + k) % U32) (b - 1) = some r := by
  induction hseg with
  | nil a => intro dpt k f r _ _ _ h; exact ⟨f, h⟩
  | atom a b c hc h1 h2 h3 h4 hseg ih =>
    intro dpt k f r ha hd hk h
    have h₁ : jbAux s dpt (f + 1) ((dpt + k) % U32) a = some r := by
      rw [jbAux_some dpt f _ hc, if_neg h2, if_neg h1, if_neg h4, fmoveback_one]
      exact h
    exact ih dpt k (f + 1) r (Nat.succ_le_succ (Nat.zero_le a)) hd
      (seg_bound_atom hk) h₁
  | loop a m b ha' hm hbody htail ihb iht =>
    intro dpt k f r ha hd hk h
    have ham := seg_le hbody
    have hmb := seg_le htail
    have h₁ : jbAux s dpt (f + 1) ((dpt + (k + 1)) % U32) a = some r := by
      rw [jbAux_some dpt f _ ha', if_neg (by decide), if_pos rfl,
        if_neg (mod_ne dpt (k + 1) hd (Nat.succ_ne_zero k)
          (seg_bounds ham hmb hk).2.2), mod_dec, fmoveback_one]
      exact h
    obtain ⟨f2, h₂⟩ := ihb dpt (k + 1) (f + 1) r
      (Nat.succ_le_succ (Nat.zero_le a)) hd (seg_bounds ham hmb hk).1 h₁
    have h₃ : jbAux s dpt (f2 + 1) ((dpt + k) % U32) m = some r := by
      rw [jbAux_some dpt f2 _ hm, if_pos rfl, mod_inc, fmoveback_one]
      exact h₂
    exact iht dpt k (f2 + 1) r (Nat.succ_le_succ (Nat.zero_le m)) hd
      (seg_bounds ham hmb hk).2.1 h₃
  | comment a m b hmp htail iht =>
    intro dpt k f r ha hd hk h
    have ham : a < m := hmp.1
    have hmb := seg_le htail
    have hbw : ffindc_matching s ')' '(' (-1) (max f (m - a + 1)) m = some a :=
      ffindc_matching_bwd (by decide) hmp _
        (Nat.lt_of_succ_le (le_max_right f (m - a + 1)))
    have h₁ : jbAux s dpt (max f (m - a + 1) + 1) ((dpt + k) % U32) m = some r := by
      rw [jbAux_some dpt _ _ hmp.2.2.1, if_neg (by decide), if_neg (by decide),
        if_pos rfl, hbw]
      show jbAux s dpt (max f (m - a + 1)) ((dpt + k) % U32) (fmoveback a 1) = some r
      rw [fmoveback_one]
      exact jbAux_mono _ _ _ _ h _ (le_max_left _ _)
    exact iht dpt k (max f (m - a + 1) + 1) r
      (Nat.succ_le_succ (Nat.zero_le m)) hd (seg_bounds ham hmb hk).2.1 h₁

/-!  The two jump primitives land on the matching bracket.  -/

theorem jump_forward_skip {s : List Char} {i j : Nat} (dpt : Nat)
    (hm : BracketMatch s i j) (hlen : s.length < U32) :
    ∃ N, ∀ fuel, N ≤ fuel →
      jump_forward s 0 dpt i fuel = some ((dpt + 1) % U32, j) := by
  obtain ⟨hgi, hgj, hbody⟩ := hm
  have hd' : (dpt + 1) % U32 < U32 := Nat.mod_lt _ u32_pos
  have hjlen : j < s.length := get?_some_lt hgj
  have e0 : ((dpt + 1) % U32 + 0) % U32 = (dpt + 1) % U32 :=
    mod_eq_self _ hd'
  have hbase : jfAux s ((dpt + 1) % U32) 1 (((dpt + 1) % U32 + 0) % U32) j = some j := by
    rw [e0, jfAux_some ((dpt + 1) % U32) 0 _ hgj, if_neg (by decide),
      if_pos rfl, if_pos rfl]
  obtain ⟨f', hscan⟩ := jf_seg hbody ((dpt + 1) % U32) 0 1 j hd'
    (scan_init_bound i hjlen hlen) hbase
  rw [e0] at hscan
  refine ⟨f', fun fuel hf => ?_⟩
  unfold jump_forward
  show (jfAux s ((dpt + 1) % U32) fuel ((dpt + 1) % U32) (fmove i 1)).map
      (fun p => ((dpt + 1) % U32, p)) = _
  rw [fmove_one, jfAux_mono _ _ _ _ hscan _ hf]
  rfl

theorem jump_backward_find {s : List Char} {i j : Nat} {dpt cellv : Nat}
    (hm : BracketMatch s i j) (hlen : s.length < U32) (hd : dpt < U32)
    (hi : 1 ≤ i) (hc : cellv ≠ 0) :
    ∃ N, ∀ fuel, N ≤ fuel →
      jump_backward s cellv dpt j fuel = some ((dpt + (U32 - 1)) % U32, i - 1) := by
  obtain ⟨hgi, hgj, hbody⟩ := hm
  have hjlen : j < s.length := get?_some_lt hgj
  have e0 : (dpt + 0) % U32 = dpt := mod_eq_self dpt hd
  have hbase : jbAux s dpt 1 ((dpt + 0) % U32) (i + 1 - 1) = some i := by
    rw [e0]
    show jbAux s dpt 1 dpt i = some i
    rw [jbAux_some dpt 0 dpt hgi, if_neg (by decide), if_pos rfl, if_pos rfl]
  obtain ⟨f', hscan⟩ := jb_seg hbody dpt 0 1 i
    (Nat.succ_le_succ (Nat.zero_le i)) hd (scan_init_bound i hjlen hlen) hbase
  rw [e0] at hscan
  refine ⟨f', fun fuel hf => ?_⟩
  unfold jump_backward
  rw [if_neg hc, fmoveback_one, jbAux_mono _ _ _ _ hscan _ hf]
  show some ((dpt + (U32 - 1)) % U32, fmoveback i 1) = _
  rw [fmoveback_one]

/-!  One dispatch step of the interpreter, per command byte.  -/

theorem step_gt {s : List Char} {st : St} (fuel : Nat)
    (h : s.get? st.pos = some '>')
    (h0 : ¬ st.ptr < 0) (h1 : ¬ (STACK_SIZE : Int) ≤ st.ptr) :
    interpret_file s (fuel + 1) st =
      interpret_file s fuel { st with ptr := st.ptr + 1, pos := st.pos + 1 } := by
  rw [interpret_file_step fuel h h0 h1]
  rfl

theorem step_lt {s : List Char} {st : St} (fuel : Nat)
    (h : s.get? st.pos = some '<')
    (h0 : ¬ st.ptr < 0) (h1 : ¬ (STACK_SIZE : Int) ≤ st.ptr) :
    interpret_file s (fuel + 1) st =
      interpret_file s fuel { st with ptr := st.ptr - 1, pos := st.pos + 1 } := by
  rw [interpret_file_step fuel h h0 h1]
  rfl

theorem step_plus {s : List Char} {st : St} (fuel : Nat)
    (h : s.get? st.pos = some '+')
    (h0 : ¬ st.ptr < 0) (h1 : ¬ (STACK_SIZE : Int) ≤ st.ptr) :
    interpret_file s (fuel + 1) st =
      interpret_file s fuel
        { st with tape := writeTape st.tape st.ptr ((readTape st.tape st.ptr + 1) % 256),
                  pos := st.pos + 1 } := by
  rw [interpret_file_step fuel h h0 h1]
  rfl

theorem step_minus {s : List Char} {st : St} (fuel : Nat)
    (h : s.get? st.pos = some '-')
    (h0 : ¬ st.ptr < 0) (h1 : ¬ (STACK_SIZE : Int) ≤ st.ptr) :
    interpret_file s (fuel + 1) st =
      interpret_file s fuel
        { st with tape := writeTape st.tape st.ptr ((readTape st.tape st.ptr + 255) % 256),
                  pos := st.pos + 1 } := by
  rw [interpret_file_step fuel h h0 h1]
  rfl

theorem step_open {s : List Char} {st : St} {fuel : Nat} {d p : Nat}
    (h : s.get? st.pos = some '[')
    (h0 : ¬ st.ptr < 0) (h1 : ¬ (STACK_SIZE : Int) ≤ st.ptr)
    (hj : jump_forward s (readTape st.tape st.ptr) st.depth st.pos fuel = some (d, p)) :
    interpret_file s (fuel + 1) st =
      interpret_file s fuel { st with depth := d, pos := p + 1 } := by
  have hrc : run_command s fuel st '[' =
      some (.inr { st with depth := d, pos := p }) := by
    show (jump_forward s (readTape st.tape st.ptr) st.depth st.pos fuel).map
        (fun dp => (Sum.inr { st with depth := dp.1, pos := dp.2 } : Error ⊕ St)) = _
    rw [hj]
    rfl
  rw [interpret_file_step fuel h h0 h1, hrc]

theorem step_close {s : List Char} {st : St} {fuel : Nat} {d p : Nat}
    (h : s.get? st.pos = some ']')
    (h0 : ¬ st.ptr < 0) (h1 : ¬ (STACK_SIZE : Int) ≤ st.ptr)
    (hj : jump_backward s (readTape st.tape st.ptr) st.depth st.pos fuel = some (d, p)) :
    interpret_file s (fuel + 1) st =
      interpret_file s fuel { st with depth := d, pos := p + 1 } := by
  have hrc : run_command s fuel st ']' =
      some (.inr { st with depth := d, pos := p }) := by
    show (jump_backward s (readTape st.tape st.ptr) st.depth st.pos fuel).map
        (fun dp => (Sum.inr { st with depth := dp.1, pos := dp.2 } : Error ⊕ St)) = _
    rw [hj]
    rfl
  rw [interpret_file_step fuel h h0 h1, hrc]

theorem step_paren {s : List Char} {st : St} {fuel : Nat} {p : Nat}
    (h : s.get? st.pos = some '(')
    (h0 : ¬ st.ptr < 0) (h1 : ¬ (STACK_SIZE : Int) ≤ st.ptr)
    (hp : ffindc_matching s '(' ')' 1 fuel st.pos = some p) :
    interpret_file s (fuel + 1) st =
      interpret_file s fuel { st with pos := p + 1 } := by
  have hrc : run_command s fuel st '(' = some (.inr { st with pos := p }) := by
    show (ffindc_matching s '(' ')' 1 fuel st.pos).map
        (fun p => (Sum.inr { st with pos := p } : Error ⊕ St)) = _
    rw [hp]
    rfl
  rw [interpret_file_step fuel h h0 h1, hrc]

theorem step_hash {s : List Char} {st : St} (fuel : Nat)
    (h : s.get? st.pos = some '#')
    (h0 : ¬ st.ptr < 0) (h1 : ¬ (STACK_SIZE : Int) ≤ st.ptr) :
    interpret_file s (fuel + 1) st =
      interpret_file s fuel { st with pos := ffindc s '\n' st.pos + 1 } := by
  rw [interpret_file_step fuel h h0 h1]
  rfl

/-!  The validation passes.  -/

theorem check_mb_fst (s : List Char) (opn cls : Char) (w : Int) :
    (check_matching_brackets s opn cls w).1 =
      if (cmbAux opn cls s 0 w).1 ≠ 0 then ERR_MATCHING_BRACKET else ERR_OK := rfl

theorem check_mb_snd (s : List Char) (opn cls : Char) (w : Int) :
    (check_matching_brackets s opn cls w).2 = (cmbAux opn cls s 0 w).2 := rfl

theorem cmbAux_w (opn cls : Char) :
    ∀ (l : List Char) (level w : Int),
      (cmbAux opn cls l level w).2 = w + l.length := by
  intro l
  induction l with
  | nil => intro level w; simp [cmbAux]
  | cons c rest ih =>
    intro level w
    unfold cmbAux
    rw [ih, List.length_cons]
    push_cast
    ring

theorem cmbAux_level (opn cls : Char) (hoc : opn ≠ cls) :
    ∀ (l : List Char) (level w : Int),
      (cmbAux opn cls l level w).1 =
        level + (l.count opn : Int) - (l.count cls : Int) := by
  intro l
  induction l with
  | nil => intro level w; simp [cmbAux]
  | cons ch rest ih =>
    intro level w
    unfold cmbAux
    rw [ih]
    by_cases h1 : ch = opn
    · subst h1
      rw [if_pos rfl, List.count_cons_self, List.count_cons_of_ne (fun hc => hoc hc.symm)]
      push_cast
      ring
    · by_cases h2 : ch = cls
      · subst h2
        rw [if_neg h1, if_pos rfl, List.count_cons_self,
          List.count_cons_of_ne (fun hc => h1 hc.symm)]
        push_cast
        ring
      · rw [if_neg h1, if_neg h2, List.count_cons_of_ne (fun hc => h1 hc.symm),
          List.count_cons_of_ne (fun hc => h2 hc.symm)]

theorem readfile_fail1 {s : List Char}
    (h : (check_matching_brackets s '[' ']' 0).1 ≠ ERR_OK) (inp : List Nat) (fuel : Nat) :
    readfile s inp fuel =
      some (ERR_MATCHING_BRACKET, (check_matching_brackets s '[' ']' 0).2, initSt inp) := by
  show (if (check_matching_brackets s '[' ']' 0).1 ≠ ERR_OK then _ else _) = _
  rw [if_pos h]

theorem readfile_fail2 {s : List Char}
    (h1 : (check_matching_brackets s '[' ']' 0).1 = ERR_OK)
    (h2 : (check_matching_brackets s '(' ')'
        (check_matching_brackets s '[' ']' 0).2).1 ≠ ERR_OK)
    (inp : List Nat) (fuel : Nat) :
    readfile s inp fuel =
      some (ERR_MATCHING_BRACKET,
        (check_matching_brackets s '(' ')' (check_matching_brackets s '[' ']' 0).2).2,
        initSt inp) := by
  show (if (check_matching_brackets s '[' ']' 0).1 ≠ ERR_OK then _ else _) = _
  rw [if_neg (fun hc => hc h1)]
  show (if (check_matching_brackets s '(' ')'
      (check_matching_brackets s '[' ']' 0).2).1 ≠ ERR_OK then _ else _) = _
  rw [if_pos h2]

theorem readfile_validated {s : List Char}
    (h1 : (check_matching_brackets s '[' ']' 0).1 = ERR_OK)
    (h2 : (check_matching_brackets s '(' ')'
        (check_matching_brackets s '[' ']' 0).2).1 = ERR_OK)
    (inp : List Nat) (fuel : Nat) :
    readfile s inp fuel =
      match interpret_file s fuel (initSt inp) with
      | none => none
      | some (e, st) =>
        some (e, (check_matching_brackets s '(' ')'
          (check_matching_brackets s '[' ']' 0).2).2, st) := by
  show (if (check_matching_brackets s '[' ']' 0).1 ≠ ERR_OK then _ else _) = _
  rw [if_neg (fun hc => hc h1)]
  show (if (check_matching_brackets s '(' ')'
      (check_matching_brackets s '[' ']' 0).2).1 ≠ ERR_OK then _ else _) = _
  rw [if_neg (fun hc => hc h2)]

/-!  Claim theorems.  -/

/-- C1: dispatching a loop opening bracket inside a balanced program:
with the current cell zero, control transfers one byte past the matching
closing bracket (found by the forward scan through the body, with comment
spans skipped) and no body instruction executes, since tape, pointer,
output and input are untouched; with the current cell nonzero, control
falls through into the body at the next byte.  In both cases the depth is
incremented.  The third conjunct is the loop exit: dispatching the
closing bracket with the cell zero decrements the depth and continues
past it, so the body keeps being re-entered (via the re-enactment of the
loop opening proved for C3) exactly until the cell read at the test is
zero. -/
theorem c1_loop_open_semantics (s : List Char) (st : St) (i j : Nat)
    (hpos : st.pos = i) (hm : BracketMatch s i j) (hlen : s.length < U32)
    (h0 : ¬ st.ptr < 0) (h1 : ¬ (STACK_SIZE : Int) ≤ st.ptr) :
    (readTape st.tape st.ptr ≠ 0 → ∀ fuel,
        interpret_file s (fuel + 1) st =
          interpret_file s fuel { st with depth := (st.depth + 1) % U32, pos := i + 1 })
    ∧ (readTape st.tape st.ptr = 0 → ∃ N, ∀ fuel, N ≤ fuel →
        interpret_file s (fuel + 1) st =
          interpret_file s fuel { st with depth := (st.depth + 1) % U32, pos := j + 1 })
    ∧ (∀ st2 : St, st2.pos = j → readTape st2.tape st2.ptr = 0 →
        ¬ st2.ptr < 0 → ¬ (STACK_SIZE : Int) ≤ st2.ptr → ∀ fuel,
        interpret_file s (fuel + 1) st2 =
          interpret_file s fuel
            { st2 with depth := (st2.depth + (U32 - 1)) % U32, pos := j + 1 }) := by
  obtain ⟨hgi, hgj, hbody⟩ := hm
  refine ⟨?_, ?_, ?_⟩
  · intro hc fuel
    have hj : jump_forward s (readTape st.tape st.ptr) st.depth st.pos fuel =
        some ((st.depth + 1) % U32, st.pos) := by
      show (if readTape st.tape st.ptr ≠ 0 then
          some ((st.depth + 1) % U32, st.pos) else _) = _
      rw [if_pos hc]
    rw [step_open (by rw [hpos]; exact hgi) h0 h1 hj, hpos]
  · intro hc
    obtain ⟨N, hN⟩ := jump_forward_skip st.depth ⟨hgi, hgj, hbody⟩ hlen
    refine ⟨N, fun fuel hf => ?_⟩
    have hj : jump_forward s (readTape st.tape st.ptr) st.depth st.pos fuel =
        some ((st.depth + 1) % U32, j) := by
      rw [hc, hpos]
      exact hN fuel hf
    rw [step_open (by rw [hpos]; exact hgi) h0 h1 hj]
  · intro st2 hpos2 hc h02 h12 fuel
    have hj : jump_backward s (readTape st2.tape st2.ptr) st2.depth st2.pos fuel =
        some ((st2.depth + (U32 - 1)) % U32, st2.pos) := by
      unfold jump_backward
      rw [if_pos hc]
    rw [step_close (by rw [hpos2]; exact hgj) h02 h12 hj, hpos2]

/-- C2: when the delimiter under the cursor has a matching counterpart in
the declarative sense, the scan primitive ffindc_matching terminates on
exactly that counterpart: scanning forward from the opening delimiter it
stops on the matching closing one, scanning backward from the closing
delimiter it stops on the matching opening one, nesting handled by the
local counter. -/
theorem c2_ffindc_matching_correct (s : List Char) (o c : Char) (p q : Nat)
    (ho : o ≠ c) (hm : MatchedPair s o c p q) :
    ∀ fuel, q - p < fuel →
      ffindc_matching s o c 1 fuel p = some q ∧
      ffindc_matching s c o (-1) fuel q = some p := by
  intro fuel hf
  exact ⟨ffindc_matching_fwd ho hm fuel hf, ffindc_matching_bwd ho hm fuel hf⟩

/-- C3: dispatching a loop closing bracket with the current cell nonzero:
after jump_backward and the normal one byte step of the dispatcher, the
cursor rests exactly on the matching opening bracket (which is a loop
opening byte, so loop open is reenacted), and the depth has decreased by
exactly one.  The hypotheses that the matching opening bracket is not at
offset zero and that the depth is at least one hold at every reachable
dispatch of this kind: the loop body can only have been entered through
its opening bracket with a nonzero cell, which is impossible for a
bracket at offset zero of a freshly started program, and entering it
incremented the depth. -/
theorem c3_loop_close_reenacts (s : List Char) (st : St) (i j : Nat)
    (hpos : st.pos = j) (hm : BracketMatch s i j) (hi : 1 ≤ i)
    (hlen : s.length < U32) (hdep : st.depth < U32) (hdep1 : 1 ≤ st.depth)
    (h0 : ¬ st.ptr < 0) (h1 : ¬ (STACK_SIZE : Int) ≤ st.ptr)
    (hcell : readTape st.tape st.ptr ≠ 0) :
    s.get? i = some '[' ∧
    ∃ N, ∀ fuel, N ≤ fuel →
      interpret_file s (fuel + 1) st =
        interpret_file s fuel { st with depth := st.depth - 1, pos := i } := by
  obtain ⟨hgi, hgj, hbody⟩ := hm
  refine ⟨hgi, ?_⟩
  obtain ⟨N, hN⟩ := jump_backward_find ⟨hgi, hgj, hbody⟩ hlen hdep hi hcell
  refine ⟨N, fun fuel hf => ?_⟩
  have hj : jump_backward s (readTape st.tape st.ptr) st.depth st.pos fuel =
      some ((st.depth + (U32 - 1)) % U32, i - 1) := by
    rw [hpos]
    exact hN fuel hf
  rw [step_close (by rw [hpos]; exact hgj) h0 h1 hj]
  show interpret_file s fuel
      { st with depth := (st.depth + (U32 - 1)) % U32, pos := i - 1 + 1 } = _
  rw [mod_pred st.depth hdep1 hdep, show i - 1 + 1 = i from Nat.succ_pred_eq_of_pos hi]

/-- C4 counterexample: the claim says comment contents never affect the
validation outcome, even a stray bracket, as long as the comment
delimiters balance.  But check_matching_brackets counts every bracket
byte of the file, including those inside comment spans: the source
consisting of the single comment with a stray closing bracket inside is
rejected by validation, while the same comment without it passes, and the
whole run reports the unmatched delimiter error. -/
theorem c4_counterexample :
    (check_matching_brackets ['(', ']', ')'] '[' ']' 0).1 = ERR_MATCHING_BRACKET ∧
    (check_matching_brackets ['(', ')'] '[' ']' 0).1 = ERR_OK ∧
    (readfile ['(', ']', ')'] [] 10).map (fun r => (r.1, r.2.1)) =
      some (ERR_MATCHING_BRACKET, 3) := by
  refine ⟨by decide, by decide, by rfl⟩

/-- C4 (amended): during execution, comment spans are opaque: dispatching
a comment opening paren with a matching closing paren moves the cursor to
one byte past that closing paren, with tape state, tape pointer, depth,
output and input all untouched, whatever bytes the comment holds; a line
comment byte likewise only moves the cursor to one byte past the next
newline.  (Validation, by contrast, does count brackets inside comments,
as the counterexample shows.) -/
theorem c4_comment_skip (s : List Char) (st : St) (a m : Nat)
    (hpos : st.pos = a) (hm : MatchedPair s '(' ')' a m)
    (h0 : ¬ st.ptr < 0) (h1 : ¬ (STACK_SIZE : Int) ≤ st.ptr) :
    (∀ fuel, m - a < fuel →
      interpret_file s (fuel + 1) st = interpret_file s fuel { st with pos := m + 1 })
    ∧ (∀ st2 : St, s.get? st2.pos = some '#' → ¬ st2.ptr < 0 →
        ¬ (STACK_SIZE : Int) ≤ st2.ptr → ∀ fuel,
        interpret_file s (fuel + 1) st2 =
          interpret_file s fuel { st2 with pos := ffindc s '\n' st2.pos + 1 }) := by
  constructor
  · intro fuel hf
    have hp : ffindc_matching s '(' ')' 1 fuel st.pos = some m := by
      rw [hpos]
      exact ffindc_matching_fwd (by decide) hm fuel hf
    rw [step_paren (by rw [hpos]; exact hm.2.1) h0 h1 hp]
  · intro st2 h2 h02 h12 fuel
    rw [step_hash fuel h2 h02 h12]

/-- C6: a source with unequal counts of loop opening and closing brackets
is rejected by the first validation pass with the unmatched delimiter
error before any instruction executes: the interpreter never runs, the
reported state is the untouched initial one, with an all zero tape, the
pointer on cell zero and no output. -/
theorem c6_unmatched_rejected (s : List Char)
    (h : s.count '[' ≠ s.count ']') (inp : List Nat) (fuel : Nat) :
    readfile s inp fuel = some (ERR_MATCHING_BRACKET, (s.length : Int), initSt inp) ∧
    (initSt inp).output = [] ∧ (∀ k, (initSt inp).tape k = 0) ∧
    (initSt inp).ptr = 0 := by
  have hlvl : (cmbAux '[' ']' s 0 0).1 ≠ 0 := by
    rw [cmbAux_level '[' ']' (by decide) s 0 0]
    intro hc
    apply h
    rw [Int.zero_add] at hc
    exact_mod_cast Int.sub_eq_zero.mp hc
  have hfail : (check_matching_brackets s '[' ']' 0).1 ≠ ERR_OK := by
    rw [check_mb_fst, if_pos hlvl]
    decide
  refine ⟨?_, rfl, fun k => rfl, rfl⟩
  rw [readfile_fail1 hfail inp fuel, check_mb_snd, cmbAux_w, zero_add]

/-- C9: the global depth is an unsigned counter decremented with no lower
bound check.  The two byte net balanced program of a closing bracket
followed by an opening one passes both validation passes, and dispatching
a closing bracket while the cell is zero and the depth is zero wraps the
depth around to 2 to the 32 minus 1 while control simply continues at the
next byte. -/
theorem c9_depth_wraparound :
    (check_matching_brackets [']', '['] '[' ']' 0).1 = ERR_OK ∧
    (check_matching_brackets [']', '['] '(' ')' 0).1 = ERR_OK ∧
    (∀ (s : List Char) (st : St) (fuel : Nat),
      s.get? st.pos = some ']' → readTape st.tape st.ptr = 0 → st.depth = 0 →
      ¬ st.ptr < 0 → ¬ (STACK_SIZE : Int) ≤ st.ptr →
      interpret_file s (fuel + 1) st =
        interpret_file s fuel { st with depth := 4294967295, pos := st.pos + 1 }) := by
  refine ⟨by decide, by decide, ?_⟩
  intro s st fuel h hc hd h0 h1
  have hj : jump_backward s (readTape st.tape st.ptr) st.depth st.pos fuel =
      some (4294967295, st.pos) := by
    unfold jump_backward
    rw [if_pos hc, hd]
    rfl
  rw [step_close h h0 h1 hj]

/-- C10: each validation pass scans to end of source unconditionally,
bumping the shared byte counter once per byte, so the offset reported on
failure is never the position of the offending delimiter (every position
of the source is strictly below the source length): when the bracket pass
fails the reported offset equals the source length, and when the bracket
pass succeeds but the paren pass fails it equals twice the source
length. -/
theorem c10_offset_end_of_scan (s : List Char) :
    ((check_matching_brackets s '[' ']' 0).1 ≠ ERR_OK →
      ∀ inp fuel, readfile s inp fuel =
        some (ERR_MATCHING_BRACKET, (s.length : Int), initSt inp))
    ∧ ((check_matching_brackets s '[' ']' 0).1 = ERR_OK →
      (check_matching_brackets s '(' ')' (s.length : Int)).1 ≠ ERR_OK →
      ∀ inp fuel, readfile s inp fuel =
        some (ERR_MATCHING_BRACKET, 2 * (s.length : Int), initSt inp)) := by
  have hw : (check_matching_brackets s '[' ']' 0).2 = (s.length : Int) := by
    rw [check_mb_snd, cmbAux_w, zero_add]
  constructor
  · intro h inp fuel
    rw [readfile_fail1 h inp fuel, hw]
  · intro h1 h2 inp fuel
    have h2' : (check_matching_brackets s '(' ')'
        (check_matching_brackets s '[' ']' 0).2).1 ≠ ERR_OK := by
      rw [hw]
      exact h2
    rw [readfile_fail2 h1 h2' inp fuel, check_mb_snd, cmbAux_w, hw, ← two_mul]

/-!  C7: net effect of arithmetic and move programs.  -/

theorem c7_aux (s : List Char) :
    ∀ fuel (st : St),
      onlyArith (s.drop st.pos) = true →
      inBoundsPath (s.drop st.pos) st.ptr = true →
      (∀ k, st.tape k < 256) →
      s.length - st.pos < fuel →
      ∃ st' : St, interpret_file s fuel st = some (ERR_OK, st') ∧
        st'.ptr = refPos (s.drop st.pos) st.ptr ∧
        (∀ k, (st'.tape k : Int) =
          ((st.tape k : Int) + refNet (s.drop st.pos) st.ptr k) % 256) ∧
        st'.output = st.output ∧ st'.depth = st.depth ∧ st'.input = st.input := by
  intro fuel
  induction fuel with
  | zero => intro st _ _ _ hf; exact absurd hf (Nat.not_lt_zero _)
  | succ fuel ih =>
    intro st harith hbounds htp hf
    cases hv : s.get? st.pos with
    | none =>
      have hlen : s.length ≤ st.pos := List.get?_eq_none.mp hv
      have hdrop : s.drop st.pos = [] := List.drop_eq_nil_of_le hlen
      refine ⟨{ st with pos := st.pos - 1 }, interpret_file_eof fuel hv, ?_, ?_, rfl, rfl, rfl⟩
      · rw [hdrop]
        rfl
      · intro k
        rw [hdrop]
        show (st.tape k : Int) = ((st.tape k : Int) + 0) % 256
        rw [Int.add_zero,
          Int.emod_eq_of_lt (Int.natCast_nonneg _) (by exact_mod_cast htp k)]
    | some c =>
      have hlt : st.pos < s.length := get?_some_lt hv
      have hgetc : s.get ⟨st.pos, hlt⟩ = c := by
        have h2 := List.get?_eq_get hlt
        rw [hv] at h2
        exact (Option.some.inj h2).symm
      have hdrop : s.drop st.pos = c :: s.drop (st.pos + 1) := by
        rw [List.drop_eq_get_cons hlt, hgetc]
      rw [hdrop] at harith hbounds
      simp only [onlyArith, Bool.and_eq_true] at harith
      simp only [inBoundsPath, Bool.and_eq_true, decide_eq_true_eq] at hbounds
      obtain ⟨hc4, harith'⟩ := harith
      obtain ⟨⟨hb0, hb1⟩, hbrest⟩ := hbounds
      simp only [Bool.or_eq_true, decide_eq_true_eq] at hc4
      rcases hc4 with ((hcc | hcc) | hcc) | hcc
      · subst hcc
        obtain ⟨st', hrun, hptr, htape, hout, hdep, hinp⟩ :=
          ih { st with tape := writeTape st.tape st.ptr ((readTape st.tape st.ptr + 1) % 256),
                       pos := st.pos + 1 }
            (by exact harith') (by exact hbrest)
            (by intro k
                show (if k = st.ptr.toNat then (readTape st.tape st.ptr + 1) % 256
                      else st.tape k) < 256
                by_cases hk : k = st.ptr.toNat
                · rw [if_pos hk]
                  exact Nat.mod_lt _ (by decide)
                · rw [if_neg hk]
                  exact htp k)
            (show s.length - (st.pos + 1) < fuel from sub_fuel_step hlt hf)
        refine ⟨st', ?_, ?_, ?_, hout, hdep, hinp⟩
        · rw [step_plus fuel hv (Int.not_lt.mpr hb0) (Int.not_le.mpr hb1)]
          exact hrun
        · rw [hdrop]
          exact hptr
        · intro k
          rw [hdrop]
          have ht : (st'.tape k : Int) =
              (((writeTape st.tape st.ptr ((readTape st.tape st.ptr + 1) % 256)) k : Int)
                + refNet (s.drop (st.pos + 1)) st.ptr k) % 256 := htape k
          show (st'.tape k : Int) =
            ((st.tape k : Int) + ((if st.ptr = (k : Int) then (1 : Int) else 0)
              + refNet (s.drop (st.pos + 1)) st.ptr k)) % 256
          by_cases hk : st.ptr = (k : Int)
          · have hkn : k = st.ptr.toNat := by rw [hk, Int.toNat_natCast]
            have hcell : writeTape st.tape st.ptr ((readTape st.tape st.ptr + 1) % 256) k =
                (st.tape k + 1) % 256 := by
              show (if k = st.ptr.toNat then (readTape st.tape st.ptr + 1) % 256
                    else st.tape k) = _
              rw [if_pos hkn]
              show (st.tape st.ptr.toNat + 1) % 256 = _
              rw [← hkn]
            rw [hcell] at ht
            rw [if_pos hk]
            exact ht.trans (cast_mod_succ (st.tape k) _)
          · have hkn : ¬ k = st.ptr.toNat := fun he =>
              hk (((congrArg (fun n : Nat => (n : Int)) he).trans
                (Int.toNat_of_nonneg hb0)).symm)
            have hcell : writeTape st.tape st.ptr ((readTape st.tape st.ptr + 1) % 256) k =
                st.tape k := by
              show (if k = st.ptr.toNat then _ else _) = _
              rw [if_neg hkn]
            rw [hcell] at ht
            rw [if_neg hk, Int.zero_add]
            exact ht
      · subst hcc
        obtain ⟨st', hrun, hptr, htape, hout, hdep, hinp⟩ :=
          ih { st with tape := writeTape st.tape st.ptr ((readTape st.tape st.ptr + 255) % 256),
                       pos := st.pos + 1 }
            (by exact harith') (by exact hbrest)
            (by intro k
                show (if k = st.ptr.toNat then (readTape st.tape st.ptr + 255) % 256
                      else st.tape k) < 256
                by_cases hk : k = st.ptr.toNat
                · rw [if_pos hk]
                  exact Nat.mod_lt _ (by decide)
                · rw [if_neg hk]
                  exact htp k)
            (show s.length - (st.pos + 1) < fuel from sub_fuel_step hlt hf)
        refine ⟨st', ?_, ?_, ?_, hout, hdep, hinp⟩
        · rw [step_minus fuel hv (Int.not_lt.mpr hb0) (Int.not_le.mpr hb1)]
          exact hrun
        · rw [hdrop]
          exact hptr
        · intro k
          rw [hdrop]
          have ht : (st'.tape k : Int) =
              (((writeTape st.tape st.ptr ((readTape st.tape st.ptr + 255) % 256)) k : Int)
                + refNet (s.drop (st.pos + 1)) st.ptr k) % 256 := htape k
          show (st'.tape k : Int) =
            ((st.tape k : Int) + ((if st.ptr = (k : Int) then (-1 : Int) else 0)
              + refNet (s.drop (st.pos + 1)) st.ptr k)) % 256
          by_cases hk : st.ptr = (k : Int)
          · have hkn : k = st.ptr.toNat := by rw [hk, Int.toNat_natCast]
            have hcell : writeTape st.tape st.ptr ((readTape st.tape st.ptr + 255) % 256) k =
                (st.tape k + 255) % 256 := by
              show (if k = st.ptr.toNat then (readTape st.tape st.ptr + 255) % 256
                    else st.tape k) = _
              rw [if_pos hkn]
              show (st.tape st.ptr.toNat + 255) % 256 = _
              rw [← hkn]
            rw [hcell] at ht
            rw [if_pos hk]
            exact ht.trans (cast_mod_pred (st.tape k) _)
          · have hkn : ¬ k = st.ptr.toNat := fun he =>
              hk (((congrArg (fun n : Nat => (n : Int)) he).trans
                (Int.toNat_of_nonneg hb0)).symm)
            have hcell : writeTape st.tape st.ptr ((readTape st.tape st.ptr + 255) % 256) k =
                st.tape k := by
              show (if k = st.ptr.toNat then _ else _) = _
              rw [if_neg hkn]
            rw [hcell] at ht
            rw [if_neg hk, Int.zero_add]
            exact ht
      · subst hcc
        obtain ⟨st', hrun, hptr, htape, hout, hdep, hinp⟩ :=
          ih { st with ptr := st.ptr + 1, pos := st.pos + 1 }
            (by exact harith') (by exact hbrest) (by exact htp)
            (show s.length - (st.pos + 1) < fuel from sub_fuel_step hlt hf)
        refine ⟨st', ?_, ?_, ?_, hout, hdep, hinp⟩
        · rw [step_gt fuel hv (Int.not_lt.mpr hb0) (Int.not_le.mpr hb1)]
          exact hrun
        · rw [hdrop]
          exact hptr
        · intro k
          rw [hdrop]
          have ht : (st'.tape k : Int) =
              ((st.tape k : Int) + refNet (s.drop (st.pos + 1)) (st.ptr + 1) k) % 256 :=
            htape k
          show (st'.tape k : Int) =
            ((st.tape k : Int) + ((0 : Int) + refNet (s.drop (st.pos + 1)) (st.ptr + 1) k)) % 256
          rw [Int.zero_add]
          exact ht
      · subst hcc
        obtain ⟨st', hrun, hptr, htape, hout, hdep, hinp⟩ :=
          ih { st with ptr := st.ptr - 1, pos := st.pos + 1 }
            (by exact harith') (by exact hbrest) (by exact htp)
            (show s.length - (st.pos + 1) < fuel from sub_fuel_step hlt hf)
        refine ⟨st', ?_, ?_, ?_, hout, hdep, hinp⟩
        · rw [step_lt fuel hv (Int.not_lt.mpr hb0) (Int.not_le.mpr hb1)]
          exact hrun
        · rw [hdrop]
          exact hptr
        · intro k
          rw [hdrop]
          have ht : (st'.tape k : Int) =
              ((st.tape k : Int) + refNet (s.drop (st.pos + 1)) (st.ptr - 1) k) % 256 :=
            htape k
          show (st'.tape k : Int) =
            ((st.tape k : Int) + ((0 : Int) + refNet (s.drop (st.pos + 1)) (st.ptr - 1) k)) % 256
          rw [Int.zero_add]
          exact ht

/-- C7: for a program built only from the four arithmetic and move
commands whose pointer path stays inside the tape, execution succeeds and
the final tape assigns to every cell the net sum of its increments minus
decrements, reduced modulo 256 with wraparound; every cell with a zero
net sum, in particular every unvisited cell, holds zero; the final
pointer is the net movement; no output is produced. -/
theorem c7_arith_net_effect (s : List Char) (inp : List Nat) (fuel : Nat)
    (harith : onlyArith s = true) (hbounds : inBoundsPath s 0 = true)
    (hfuel : s.length < fuel) :
    ∃ st' : St, interpret_file s fuel (initSt inp) = some (ERR_OK, st') ∧
      st'.ptr = refPos s 0 ∧
      (∀ k, st'.tape k = (refNet s 0 k % 256).toNat) ∧
      (∀ k, refNet s 0 k = 0 → st'.tape k = 0) ∧
      st'.output = [] := by
  obtain ⟨st', hrun, hptr, htape, hout, hdep, hinp⟩ :=
    c7_aux s fuel (initSt inp) (by exact harith) (by exact hbounds)
      (fun k => by show (0 : Nat) < 256; decide)
      (by show s.length - 0 < fuel; rw [Nat.sub_zero]; exact hfuel)
  have hmain : ∀ k, st'.tape k = (refNet s 0 k % 256).toNat := by
    intro k
    have h : (st'.tape k : Int) = ((0 : Int) + refNet s 0 k) % 256 := htape k
    rw [Int.zero_add] at h
    have h2 := congrArg Int.toNat h
    rw [Int.toNat_natCast] at h2
    exact h2
  refine ⟨st', hrun, by exact hptr, hmain, ?_, hout⟩
  intro k hzero
  rw [hmain k, hzero]
  rfl

/-- C8: the nested loop program of five bytes, an outer loop around an
inner cell clearing loop, started with the current cell holding 3,
terminates within 100 dispatch iterations: the inner loop zeroes the
cell, the outer loop test then reads zero and exits, and the depth
returns to zero, so the re-entrant depth increments of loop open were
balanced by the matching decrements. -/
theorem c8_nested_loop_terminates :
    (interpret_file ['[', '[', '-', ']', ']'] 100
        { tape := (fun k => if k = 0 then 3 else 0), ptr := 0, depth := 0, pos := 0,
          output := [], input := [] }).map
      (fun r => (r.1, r.2.tape 0, r.2.depth, r.2.ptr)) =
      some (ERR_OK, 0, 0, 0) := by rfl

/-!  Witnesses: each theorem with hypotheses applied at a concrete input.  -/

theorem c1_witness :
    BracketMatch ['[', '-', ']'] 0 2 ∧
    ((['[', '-', ']'] : List Char).length < U32) ∧
    ((readTape (initSt []).tape (initSt []).ptr ≠ 0 → ∀ fuel,
        interpret_file ['[', '-', ']'] (fuel + 1) (initSt []) =
          interpret_file ['[', '-', ']'] fuel
            { initSt [] with depth := ((initSt []).depth + 1) % U32, pos := 0 + 1 })
    ∧ (readTape (initSt []).tape (initSt []).ptr = 0 → ∃ N, ∀ fuel, N ≤ fuel →
        interpret_file ['[', '-', ']'] (fuel + 1) (initSt []) =
          interpret_file ['[', '-', ']'] fuel
            { initSt [] with depth := ((initSt []).depth + 1) % U32, pos := 2 + 1 })
    ∧ (∀ st2 : St, st2.pos = 2 → readTape st2.tape st2.ptr = 0 →
        ¬ st2.ptr < 0 → ¬ (STACK_SIZE : Int) ≤ st2.ptr → ∀ fuel,
        interpret_file ['[', '-', ']'] (fuel + 1) st2 =
          interpret_file ['[', '-', ']'] fuel
            { st2 with depth := (st2.depth + (U32 - 1)) % U32, pos := 2 + 1 })) :=
  have hm : BracketMatch ['[', '-', ']'] 0 2 :=
    ⟨rfl, rfl,
      Seg.atom 1 2 '-' rfl (by decide) (by decide) (by decide) (by decide) (Seg.nil 2)⟩
  ⟨hm, by decide,
    c1_loop_open_semantics ['[', '-', ']'] (initSt []) 0 2 rfl hm (by decide)
      (by decide) (by decide)⟩

theorem c2_witness :
    (('(' : Char) ≠ ')') ∧ MatchedPair ['(', '[', '(', ')', ')'] '(' ')' 0 4 ∧
    4 - 0 < 5 ∧
    (ffindc_matching ['(', '[', '(', ')', ')'] '(' ')' 1 5 0 = some 4 ∧
     ffindc_matching ['(', '[', '(', ')', ')'] ')' '(' (-1) 5 4 = some 0) :=
  have hm : MatchedPair ['(', '[', '(', ')', ')'] '(' ')' 0 4 :=
    ⟨by decide, rfl, rfl, by decide, by decide⟩
  ⟨by decide, hm, by decide,
    c2_ffindc_matching_correct ['(', '[', '(', ')', ')'] '(' ')' 0 4 (by decide) hm 5
      (by decide)⟩

theorem c3_witness :
    BracketMatch ['+', '[', '-', ']'] 1 3 ∧
    (readTape (fun k => if k = 0 then 1 else 0) 0 ≠ 0) ∧
    ((['+', '[', '-', ']'] : List Char).get? 1 = some '[' ∧
      ∃ N, ∀ fuel, N ≤ fuel →
        interpret_file ['+', '[', '-', ']'] (fuel + 1)
            { tape := (fun k => if k = 0 then 1 else 0), ptr := 0, depth := 1, pos := 3,
              output := [], input := [] } =
          interpret_file ['+', '[', '-', ']'] fuel
            { tape := (fun k => if k = 0 then 1 else 0), ptr := 0, depth := 1 - 1, pos := 1,
              output := [], input := [] }) :=
  have hm : BracketMatch ['+', '[', '-', ']'] 1 3 :=
    ⟨rfl, rfl,
      Seg.atom 2 3 '-' rfl (by decide) (by decide) (by decide) (by decide) (Seg.nil 3)⟩
  ⟨hm, by decide,
    c3_loop_close_reenacts ['+', '[', '-', ']']
      { tape := (fun k => if k = 0 then 1 else 0), ptr := 0, depth := 1, pos := 3,
        output := [], input := [] }
      1 3 rfl hm (by decide) (by decide) (by decide) (by decide) (by decide) (by decide)
      (by decide)⟩

theorem c4_witness :
    MatchedPair ['(', ']', ')', '+'] '(' ')' 0 2 ∧
    ((∀ fuel, 2 - 0 < fuel →
        interpret_file ['(', ']', ')', '+'] (fuel + 1) (initSt []) =
          interpret_file ['(', ']', ')', '+'] fuel { initSt [] with pos := 2 + 1 })
    ∧ (∀ st2 : St, (['(', ']', ')', '+'] : List Char).get? st2.pos = some '#' →
        ¬ st2.ptr < 0 → ¬ (STACK_SIZE : Int) ≤ st2.ptr → ∀ fuel,
        interpret_file ['(', ']', ')', '+'] (fuel + 1) st2 =
          interpret_file ['(', ']', ')', '+'] fuel
            { st2 with pos := ffindc ['(', ']', ')', '+'] '\n' st2.pos + 1 })) :=
  have hm : MatchedPair ['(', ']', ')', '+'] '(' ')' 0 2 :=
    ⟨by decide, rfl, rfl, by decide, by decide⟩
  ⟨hm,
    c4_comment_skip ['(', ']', ')', '+'] (initSt []) 0 2 rfl hm (by decide) (by decide)⟩

theorem c6_witness :
    (['[', '['] : List Char).count '[' ≠ (['[', '['] : List Char).count ']' ∧
    (readfile ['[', '['] [] 0 =
        some (ERR_MATCHING_BRACKET, ((['[', '['] : List Char).length : Int), initSt []) ∧
      (initSt []).output = [] ∧ (∀ k, (initSt []).tape k = 0) ∧
      (initSt []).ptr = 0) :=
  ⟨by decide, c6_unmatched_rejected ['[', '['] (by decide) [] 0⟩

theorem c7_witness :
    onlyArith ['+', '+', '>', '+', '<', '-'] = true ∧
    inBoundsPath ['+', '+', '>', '+', '<', '-'] 0 = true ∧
    (['+', '+', '>', '+', '<', '-'] : List Char).length < 10 ∧
    (∃ st' : St,
      interpret_file ['+', '+', '>', '+', '<', '-'] 10 (initSt []) = some (ERR_OK, st') ∧
      st'.ptr = refPos ['+', '+', '>', '+', '<', '-'] 0 ∧
      (∀ k, st'.tape k = (refNet ['+', '+', '>', '+', '<', '-'] 0 k % 256).toNat) ∧
      (∀ k, refNet ['+', '+', '>', '+', '<', '-'] 0 k = 0 → st'.tape k = 0) ∧
      st'.output = []) :=
  ⟨by decide, by decide, by decide,
    c7_arith_net_effect ['+', '+', '>', '+', '<', '-'] [] 10 (by decide) (by decide)
      (by decide)⟩

theorem c9_witness :
    interpret_file [']', '['] (5 + 1) (initSt []) =
      interpret_file [']', '['] 5
        { initSt [] with depth := 4294967295, pos := (initSt []).pos + 1 } :=
  c9_depth_wraparound.2.2 [']', '['] (initSt []) 5 rfl rfl rfl (by decide) (by decide)

theorem c10_witness :
    (check_matching_brackets ['('] '[' ']' 0).1 = ERR_OK ∧
    (check_matching_brackets ['('] '(' ')' ((['('] : List Char).length : Int)).1 ≠ ERR_OK ∧
    readfile ['('] [] 3 =
      some (ERR_MATCHING_BRACKET, 2 * ((['('] : List Char).length : Int), initSt []) :=
  ⟨by decide, by decide,
    (c10_offset_end_of_scan ['(']).2 (by decide) (by decide) [] 3⟩
